import Mathlib

/-!
# chibiline: a shallow embedding of `chibi::App`

The development follows `src/chibiline.h`.

* `std::string` is a list of characters (`Str`); one `Char` stands for one C++ `char`.
* `std::vector` is a `List`; `push_back` appends at the end.
* `std::set` is a `List` as well: the code only uses `insert(..).second` and `count`,
  so the order of the elements is immaterial.
* A member function that can throw returns the way it ended (`Outcome`) together with
  the state of the object at that moment, so that what a throwing call leaves behind
  stays visible.
* `std::variant` `Value`: the alternatives `float` and `double` are left out, their text
  conversion being floating-point arithmetic; every other alternative is kept.
* Integer widths are those of an LP64 platform (`short` 16, `int` 32, `long` and
  `long long` 64 bits).
-/

namespace chibi

/-- A `std::string`. -/
abbrev Str := List Char

/-! ## Value model -/

/-- The integer alternatives of `Value`. -/
inductive IntKind
  | short | ushort | int | uint | long | ulong | llong | ullong
  deriving DecidableEq, Repr

/-- Whether the integer type is signed. -/
def IntKind.signed : IntKind → Bool
  | .short | .int | .long | .llong => true
  | .ushort | .uint | .ulong | .ullong => false

/-- Width in bits (LP64). -/
def IntKind.bits : IntKind → Nat
  | .short | .ushort => 16
  | .int | .uint => 32
  | .long | .ulong | .llong | .ullong => 64

/-- Smallest representable value. -/
def IntKind.min (k : IntKind) : Int :=
  if k.signed then -(2 ^ (k.bits - 1) : Int) else 0

/-- Largest representable value. -/
def IntKind.max (k : IntKind) : Int :=
  if k.signed then (2 ^ (k.bits - 1) : Int) - 1 else (2 ^ k.bits : Int) - 1

/-- The template argument `T` of `cast<T>`, `get_arg<T>`, `get_opt<T>`: one alternative of
`Value` (floating alternatives excluded). -/
inductive Kind
  | bool
  | integer (k : IntKind)
  | char
  | uchar
  | string
  deriving DecidableEq, Repr

/-- The variant `Value` (line 14), floating alternatives excluded. -/
inductive Value
  | bool (b : Bool)
  | integer (k : IntKind) (n : Int)
  | char (c : Char)
  | uchar (c : Char)
  | string (s : Str)
  deriving DecidableEq, Repr

/-- The alternative a value holds (`std::variant::index`). -/
def Value.kind : Value → Kind
  | .bool _ => .bool
  | .integer k _ => .integer k
  | .char _ => .char
  | .uchar _ => .uchar
  | .string _ => .string

/-- A value its C++ type can hold: an integer lies in the range of its width. -/
def Value.InRange : Value → Prop
  | .integer k n => k.min ≤ n ∧ n ≤ k.max
  | _ => True

/-- Everything the library throws. The payload is the text the message quotes. -/
inductive Error
  /-- The message "Empty argument name: " followed by the name. -/
  | emptyArgumentName (name : Str)
  /-- The message "Multiple argument name: " followed by the name. -/
  | multipleArgumentName (name : Str)
  /-- The message "Empty option name: " followed by the name. -/
  | emptyOptionName (name : Str)
  /-- The message "Multiple option name: " followed by the name. -/
  | multipleOptionName (name : Str)
  /-- The message "Multiple option short name: " followed by the character. -/
  | multipleOptionShortName (short_name : Char)
  /-- The message "Illegal option: " followed by the word. -/
  | illegalOption (word : Str)
  /-- The message "Unrecognized option: " followed by the word. -/
  | unrecognizedOption (word : Str)
  /-- The message "Illegal option: " followed by the word and " require a value". -/
  | requireValue (word : Str)
  /-- The message "Invalid access argument". -/
  | invalidAccessArgument
  /-- A `std::bad_cast`. -/
  | badCast
  /-- A `std::bad_variant_access`, thrown by `std::get<T>`. -/
  | badVariantAccess
  deriving DecidableEq, Repr

/-- The category of an error, its quoted text dropped. -/
inductive ErrorKind
  | emptyArgumentName | multipleArgumentName | emptyOptionName | multipleOptionName
  | multipleOptionShortName | illegalOption | unrecognizedOption | requireValue
  | invalidAccessArgument | badCast | badVariantAccess
  deriving DecidableEq, Repr

/-- The category of an error. -/
def Error.kind : Error → ErrorKind
  | .emptyArgumentName _ => .emptyArgumentName
  | .multipleArgumentName _ => .multipleArgumentName
  | .emptyOptionName _ => .emptyOptionName
  | .multipleOptionName _ => .multipleOptionName
  | .multipleOptionShortName _ => .multipleOptionShortName
  | .illegalOption _ => .illegalOption
  | .unrecognizedOption _ => .unrecognizedOption
  | .requireValue _ => .requireValue
  | .invalidAccessArgument => .invalidAccessArgument
  | .badCast => .badCast
  | .badVariantAccess => .badVariantAccess

deriving instance DecidableEq for Except

/-! ## String streams and `cast<T>` -/

/-- A `std::stringstream` right after `ss << word`: the characters not yet extracted and
the two state bits the cast looks at. -/
structure StringStream where
  buf : Str
  eofbit : Bool
  failbit : Bool
  deriving DecidableEq, Repr

/-- The effect of `ss << word` on a fresh stream; inserting a string never fails. -/
def StringStream.put (word : Str) : StringStream :=
  { buf := word, eofbit := false, failbit := false }

/-- The function `std::isspace` in the classic locale. -/
def isspace (c : Char) : Bool :=
  c = ' ' || c = Char.ofNat 9 || c = Char.ofNat 10 || c = Char.ofNat 11 ||
    c = Char.ofNat 12 || c = Char.ofNat 13

/-- The sentry of a formatted input function: leading whitespace is skipped, and
running into the end of the buffer sets `eofbit` and `failbit`. -/
def StringStream.sentry (ss : StringStream) : StringStream :=
  match ss.buf.dropWhile isspace with
  | [] => { buf := [], eofbit := true, failbit := true }
  | c :: cs => { ss with buf := c :: cs }

/-- A decimal digit. -/
def isdigit (c : Char) : Bool := 48 ≤ c.toNat && c.toNat ≤ 57

/-- The number a run of decimal digits denotes. -/
def digitsValue (ds : Str) : Nat :=
  ds.foldl (fun acc c => 10 * acc + (c.toNat - 48)) 0

/-- The extractor `ss >> result` for an integer type (`num_get` in the classic locale,
base ten): an optional sign, then the longest run of digits. No digit, or a magnitude
the type cannot hold, sets `failbit`; a negative numeral read into an unsigned type
wraps around. Reaching the end of the buffer sets `eofbit`. -/
def StringStream.extractInt (k : IntKind) (ss : StringStream) : Option Int × StringStream :=
  let s := ss.sentry
  if s.failbit then (none, s)
  else
    let negative := s.buf.head? = some '-'
    let body := if s.buf.head? = some '-' || s.buf.head? = some '+' then s.buf.tail else s.buf
    let digits := body.takeWhile isdigit
    let rest := body.dropWhile isdigit
    let s1 : StringStream := { s with buf := rest, eofbit := rest.isEmpty }
    let magnitude := digitsValue digits
    let limit : Int := if negative && k.signed then -k.min else k.max
    if digits.isEmpty then (none, { s1 with failbit := true })
    else if limit < magnitude then (none, { s1 with failbit := true })
    else if negative then
      (some (if k.signed then -(magnitude : Int) else ((2 : Int) ^ k.bits - magnitude) % 2 ^ k.bits), s1)
    else (some (magnitude : Int), s1)

/-- The extractor `ss >> result` for `char` and `unsigned char`: one character is taken
after the sentry. It does not look past that character, so `eofbit` stays clear. -/
def StringStream.extractChar (ss : StringStream) : Option Char × StringStream :=
  let s := ss.sentry
  if s.failbit then (none, s)
  else
    match s.buf with
    | [] => (none, { s with eofbit := true, failbit := true })
    | c :: cs => (some c, { s with buf := cs })

/-- The extractor `ss >> result` for `std::string`: the longest run of non-whitespace
characters after the sentry; stopping at the end of the buffer sets `eofbit`. -/
def StringStream.extractString (ss : StringStream) : Option Str × StringStream :=
  let s := ss.sentry
  if s.failbit then (none, s)
  else
    let run := s.buf.takeWhile (fun c => !isspace c)
    let rest := s.buf.dropWhile (fun c => !isspace c)
    (some run, { s with buf := rest, eofbit := rest.isEmpty })

/-- The extractor `ss >> result` at the type `T`, the result wrapped as a `Value`. -/
def StringStream.extract (T : Kind) (ss : StringStream) : Option Value × StringStream :=
  match T with
  | .bool => (none, ss)
  | .integer k => ((ss.extractInt k).1.map (Value.integer k), (ss.extractInt k).2)
  | .char => (ss.extractChar.1.map Value.char, ss.extractChar.2)
  | .uchar => (ss.extractChar.1.map Value.uchar, ss.extractChar.2)
  | .string => (ss.extractString.1.map Value.string, ss.extractString.2)

/-- The function `cast<T>` (lines 20-27) and its specialisation `cast<bool>` (lines 29-37):
`ss << word && ss >> result && ss.eof()`, otherwise `std::bad_cast`. -/
def cast (T : Kind) (word : Str) : Except Error Value :=
  match T with
  | .bool =>
    if word = "true".data then .ok (.bool true)
    else if word = "false".data then .ok (.bool false)
    else .error .badCast
  | T =>
    let ss := StringStream.put word
    match ss.extract T with
    | (some result, ss1) => if !ss1.failbit && ss1.eofbit then .ok result else .error .badCast
    | (none, _) => .error .badCast

/-- The text `std::cerr << value` writes for a value (lines 316-318): `bool` as `1` or `0`
(no `boolalpha`), integers in decimal, characters and strings as they are. -/
def Value.text : Value → Str
  | .bool b => if b then "1".data else "0".data
  | .integer _ n => if n < 0 then '-' :: Nat.toDigits 10 n.natAbs else Nat.toDigits 10 n.toNat
  | .char c => [c]
  | .uchar c => [c]
  | .string s => s

/-- The function `std::get<T>` on a `Value`: the value when it holds the alternative `T`. -/
def Value.get (T : Kind) (v : Value) : Except Error Value :=
  if v.kind = T then .ok v else .error .badVariantAccess

/-! ## Declarations and the `App` object -/

/-- The struct `ArgumentValue` (lines 39-46). -/
structure ArgumentValue where
  m_name : Option Str
  m_description : Option Str
  deriving DecidableEq, Repr

/-- The struct `OptionValue` (lines 47-57). -/
structure OptionValue where
  m_name : Str
  m_short_name : Option Char
  m_description : Option Str
  m_default_value : Option Value
  deriving DecidableEq, Repr

/-- The struct `FlagValue` (lines 59-66). -/
structure FlagValue where
  m_name : Str
  m_short_name : Option Char
  m_description : Option Str
  deriving DecidableEq, Repr

/-- The data members of `App` (lines 341-353). -/
structure App where
  m_app_name : Option Str
  m_description : Option Str
  m_arguments : List ArgumentValue
  m_options : List OptionValue
  m_flag_options : List FlagValue
  m_parsed_arguments : List Str
  m_parsed_options : List (Str × OptionValue)
  m_parsed_flag_options : List FlagValue
  m_arg_name_set : List Str
  m_option_name_set : List Str
  m_option_short_name_set : List Char
  deriving DecidableEq, Repr

/-- How a call ended: it returned, it printed the help and left through `exit(0)`, or it
threw. -/
inductive Outcome
  | ok
  | help
  | error (e : Error)
  deriving DecidableEq, Repr

/-- Whether the call threw. -/
def Outcome.isError : Outcome → Bool
  | .error _ => true
  | _ => false

/-- The category of an outcome: the quoted text of a failure is dropped. -/
def Outcome.kind : Outcome → Option (Option ErrorKind)
  | .ok => none
  | .help => some none
  | .error e => some (some e.kind)

namespace App

/-- The member `insert_arg_name` (lines 103-110). -/
def insert_arg_name (app : App) (name : Str) : Outcome × App :=
  if name.isEmpty then (.error (.emptyArgumentName name), app)
  else if name ∈ app.m_arg_name_set then (.error (.multipleArgumentName name), app)
  else (.ok, { app with m_arg_name_set := name :: app.m_arg_name_set })

/-- The member `insert_option_names` (lines 111-126). The name is inserted before the
short name is looked at. -/
def insert_option_names (app : App) (name : Str) (short_name : Option Char) : Outcome × App :=
  if name.isEmpty then (.error (.emptyOptionName name), app)
  else if name ∈ app.m_option_name_set then (.error (.multipleOptionName name), app)
  else
    let app1 := { app with m_option_name_set := name :: app.m_option_name_set }
    match short_name with
    | none => (.ok, app1)
    | some c =>
      if c ∈ app1.m_option_short_name_set then (.error (.multipleOptionShortName c), app1)
      else (.ok, { app1 with m_option_short_name_set := c :: app1.m_option_short_name_set })

/-- The member `add_arg<T>` (lines 77-82); the template argument is not used. -/
def add_arg (app : App) (name : Str) (description : Option Str) : Outcome × App :=
  match app.insert_arg_name name with
  | (.ok, app1) =>
    (.ok, { app1 with m_arguments := app1.m_arguments ++ [⟨some name, description⟩] })
  | r => r

/-- The member `add_opt<T>` (lines 92-101); the template argument is the alternative the
default value holds. -/
def add_opt (app : App) (name : Str) (short_name : Option Char) (description : Option Str)
    (default_value : Option Value) : Outcome × App :=
  match app.insert_option_names name short_name with
  | (.ok, app1) =>
    (.ok, { app1 with
      m_options := app1.m_options ++ [⟨name, short_name, description, default_value⟩] })
  | r => r

/-- The member `add_flag` (lines 150-155). -/
def add_flag (app : App) (name : Str) (short_name : Option Char) (description : Option Str) :
    Outcome × App :=
  match app.insert_option_names name short_name with
  | (.ok, app1) =>
    (.ok, { app1 with
      m_flag_options := app1.m_flag_options ++ [⟨name, short_name, description⟩] })
  | r => r

/-- The members as the member initialisers of the constructor leave them. -/
def init (app_name description : Option Str) : App :=
  { m_app_name := app_name, m_description := description, m_arguments := [], m_options := [],
    m_flag_options := [], m_parsed_arguments := [], m_parsed_options := [],
    m_parsed_flag_options := [], m_arg_name_set := [], m_option_name_set := [],
    m_option_short_name_set := [] }

/-- The constructor `App::App` (lines 70-75): its body declares the help flag. -/
def new (app_name description : Option Str) : Outcome × App :=
  (init app_name description).add_flag "help".data (some 'h') (some "Print help information".data)

/-- The member `get_arg<T>` (lines 84-89). The `int` index is converted to `size_t` for the
comparison with `size()`. The object is returned along with the result: the member is
not `const`. -/
def get_arg (app : App) (T : Kind) (index : Int) : Except Error Value × App :=
  let converted : Nat := (index % (2 ^ 64 : Int)).toNat
  if converted < app.m_parsed_arguments.length then
    match app.m_parsed_arguments[converted]? with
    | some word => (cast T word, app)
    | none => (.error .invalidAccessArgument, app)
  else (.error .invalidAccessArgument, app)

/-- The first loop of `get_opt` (lines 131-136): the first parsed entry of that name. -/
def get_opt_parsed (T : Kind) (name : Str) : List (Str × OptionValue) → Option (Except Error Value)
  | [] => none
  | (word, value) :: rest =>
    if value.m_name = name then some (cast T word) else get_opt_parsed T name rest

/-- The second loop of `get_opt` (lines 138-145): the first declaration of that name that
has a default value. -/
def get_opt_default (T : Kind) (name : Str) : List OptionValue → Option (Except Error Value)
  | [] => none
  | value :: rest =>
    if value.m_name = name then
      match value.m_default_value with
      | some d => some (Value.get T d)
      | none => get_opt_default T name rest
    else get_opt_default T name rest

/-- The member `get_opt<T>` (lines 128-147); `none` is `std::nullopt`. -/
def get_opt (app : App) (T : Kind) (name : Str) : Except Error (Option Value) :=
  match get_opt_parsed T name app.m_parsed_options with
  | some r => r.map some
  | none =>
    match get_opt_default T name app.m_options with
    | some r => r.map some
    | none => .ok none

/-- The member `get_flag` (lines 157-162). -/
def get_flag (app : App) (name : Str) : Bool :=
  (app.m_parsed_flag_options.find? (fun value => value.m_name = name)).isSome

/-- The test `word.rfind(p, 0) == 0`: the word starts with `p`. -/
def starts_with (p word : Str) : Bool := p.isPrefixOf word

/-- What one run of the loop body does: go on at a later position, or leave `parse`. -/
inductive Step
  /-- The body reached `pos += 1`; `advance` is the total increment of `pos`. -/
  | next (app : App) (advance : Nat)
  /-- The body left through `exit(0)` or a `throw`. -/
  | stop (outcome : Outcome) (app : App)
  deriving DecidableEq, Repr

/-- The value binding shared by both option branches (lines 217-228 and 255-266):
`next_word` is `words[pos + 1]`, absent when `pos + 1 >= n`. -/
def bind_value (app : App) (word : Str) (next_word : Option Str) (opt : OptionValue) : Step :=
  match next_word with
  | none => .stop (.error (.requireValue word)) app
  | some next_word =>
    if starts_with "-".data next_word then .stop (.error (.requireValue word)) app
    else .next { app with m_parsed_options := app.m_parsed_options ++ [(next_word, opt)] } 2

/-- What both option branches do with the two lookups (lines 214-231 and 252-269, the
same text in both): neither found is an unrecognized option, a found value-option binds
the next word, otherwise the found flag is recorded. -/
def dispatch (app : App) (word : Str) (next_word : Option Str) (opt : Option OptionValue)
    (flag_opt : Option FlagValue) : Step :=
  match opt, flag_opt with
  | none, none => .stop (.error (.unrecognizedOption word)) app
  | some opt, _ => bind_value app word next_word opt
  | none, some flag_opt =>
    .next { app with m_parsed_flag_options := app.m_parsed_flag_options ++ [flag_opt] } 1

/-- The body of the loop of `parse` (lines 190-274) at `word = words[pos]`;
`next_word` is `words[pos + 1]`, absent when `pos + 1 >= n`. -/
def classify (app : App) (word : Str) (next_word : Option Str) : Step :=
  if word = "-h".data ∨ word = "--help".data then .stop .help app
  else if starts_with "--".data word then
    if word.length = 2 then .stop (.error (.illegalOption word)) app
    else
      let name := word.drop 2
      if name ∉ app.m_option_name_set then .stop (.error (.unrecognizedOption word)) app
      else
        dispatch app word next_word
          (app.m_options.find? (fun value => value.m_name = name))
          (app.m_flag_options.find? (fun value => value.m_name = name))
  else if starts_with "-".data word then
    if word.length = 1 then .stop (.error (.illegalOption word)) app
    else
      let short_name := word.getD 1 '-'
      if short_name ∉ app.m_option_short_name_set then
        .stop (.error (.unrecognizedOption word)) app
      else
        dispatch app word next_word
          (app.m_options.find? (fun value => value.m_short_name = some short_name))
          (app.m_flag_options.find? (fun value => value.m_short_name = some short_name))
  else .next { app with m_parsed_arguments := app.m_parsed_arguments ++ [word] } 1

/-- The loop `while (pos < n)` of `parse` (lines 189-275), run for at most `fuel` rounds.
Every round moves `pos` forward, so `n - pos` rounds are always enough
(`App.parse_loop_fuel`). -/
def parse_loop (words : List Str) : Nat → Nat → App → Outcome × App
  | 0, _, app => (.ok, app)
  | fuel + 1, pos, app =>
    match words[pos]? with
    | none => (.ok, app)
    | some word =>
      match app.classify word words[pos + 1]? with
      | .next app1 advance => parse_loop words fuel (pos + advance) app1
      | .stop outcome app1 => (outcome, app1)

/-- The member `parse(const std::vector<std::string>&)` (lines 185-276). -/
def parse (app : App) (words : List Str) : Outcome × App :=
  parse_loop words words.length 0 app

/-- The word splitting of `parse(const std::string&)` (lines 175-182): `std::getline` with
the delimiter `' '`, empty items dropped. `item` is the item being read. -/
def split_line (item : Str) : Str → List Str
  | [] => if item.isEmpty then [] else [item]
  | c :: cs =>
    if c = ' ' then (if item.isEmpty then split_line [] cs else item :: split_line [] cs)
    else split_line (item ++ [c]) cs

/-- The member `parse(const std::string&)` (lines 174-184). -/
def parse_line (app : App) (line : Str) : Outcome × App :=
  app.parse (split_line [] line)

end App

/-- The declarations of `examples/sample.cpp` (lines 5-14), each one applied when the one
before returned. -/
def sample : Outcome × App :=
  let step (r : Outcome × App) (f : App → Outcome × App) : Outcome × App :=
    match r with
    | (.ok, app) => f app
    | r => r
  let r := App.new (some "sample".data)
    (some "Calcualte \"left\" [operation] \"med\" [operation] \"right\"".data)
  let r := step r (fun app => app.add_arg "op1".data (some "First operation".data))
  let r := step r (fun app => app.add_arg "op2".data (some "Second operation".data))
  let r := step r (fun app =>
    app.add_opt "left".data (some 'l') (some "Left number".data) (some (.integer .int 20)))
  let r := step r (fun app =>
    app.add_opt "med".data (some 'm') (some "Med number".data) (some (.integer .int (-100))))
  let r := step r (fun app =>
    app.add_opt "right".data (some 'r') (some "Right number".data) (some (.integer .int 0)))
  step r (fun app => app.add_flag "verbose".data (some 'v') (some "Verbose mode".data))

/-- Two results of `parse` with the same final state and the same outcome, except that a
missing-value error quotes the spelling of the option it met. -/
def SameUpToSpelling (long short : Str) (r1 r2 : Outcome × App) : Prop :=
  r1.2 = r2.2 ∧
    (r1.1 = r2.1 ∨
      (r1.1 = .error (.requireValue long) ∧ r2.1 = .error (.requireValue short)))

/-- A word that asks for the flag: its long form `--name`, or a word that starts with `-`,
has the flag's short name as its second character and does not start with `--`. -/
def FlagToken (flag : FlagValue) (w : Str) : Prop :=
  w = '-' :: '-' :: flag.m_name ∨
    ∃ c tail, flag.m_short_name = some c ∧ w = '-' :: c :: tail ∧
      App.starts_with "--".data w = false

/-- The most elements a `std::vector` can hold: its size is at most `PTRDIFF_MAX`. -/
def vector_max_size : Nat := 2 ^ 63 - 1

/-- A value of the type `int`. -/
def IsInt (index : Int) : Prop := IntKind.int.min ≤ index ∧ index ≤ IntKind.int.max

instance (index : Int) : Decidable (IsInt index) := by
  unfold IsInt; infer_instance

/-! ## Reachable states and what holds in them -/

namespace App

/-- The names of all stored option and flag declarations. -/
def names (app : App) : List Str :=
  app.m_options.map (fun value => value.m_name) ++
    app.m_flag_options.map (fun value => value.m_name)

/-- The short names of all stored option and flag declarations. -/
def shorts (app : App) : List Char :=
  app.m_options.filterMap (fun value => value.m_short_name) ++
    app.m_flag_options.filterMap (fun value => value.m_short_name)

end App

/-- An `App` built by the constructor and declarations that all returned normally. -/
inductive Declared : App → Prop
  | new (app_name description : Option Str) : Declared (App.new app_name description).2
  | add_arg {app : App} (name : Str) (description : Option Str) :
      Declared app → (app.add_arg name description).1 = .ok →
      Declared (app.add_arg name description).2
  | add_opt {app : App} (name : Str) (short_name : Option Char) (description : Option Str)
      (default_value : Option Value) :
      Declared app → (app.add_opt name short_name description default_value).1 = .ok →
      Declared (app.add_opt name short_name description default_value).2
  | add_flag {app : App} (name : Str) (short_name : Option Char) (description : Option Str) :
      Declared app → (app.add_flag name short_name description).1 = .ok →
      Declared (app.add_flag name short_name description).2

/-- A state of an `App` after the constructor and any sequence of declaration and parse
calls, whichever way each call ended. -/
inductive Reachable : App → Prop
  | new (app_name description : Option Str) : Reachable (App.new app_name description).2
  | add_arg {app : App} (name : Str) (description : Option Str) :
      Reachable app → Reachable (app.add_arg name description).2
  | add_opt {app : App} (name : Str) (short_name : Option Char) (description : Option Str)
      (default_value : Option Value) :
      Reachable app → Reachable (app.add_opt name short_name description default_value).2
  | add_flag {app : App} (name : Str) (short_name : Option Char) (description : Option Str) :
      Reachable app → Reachable (app.add_flag name short_name description).2
  | parse {app : App} (words : List Str) :
      Reachable app → Reachable (app.parse words).2
  | parse_line {app : App} (line : Str) :
      Reachable app → Reachable (app.parse_line line).2

/-- What the registry guarantees in every reachable state: stored names are non-empty,
recorded in the name set and pairwise distinct, stored short names are recorded in the
short-name set and pairwise distinct, and the help flag is stored. -/
structure Registered (app : App) : Prop where
  names_mem : ∀ n ∈ app.names, n ∈ app.m_option_name_set
  names_ne : ∀ n ∈ app.names, n ≠ []
  shorts_mem : ∀ c ∈ app.shorts, c ∈ app.m_option_short_name_set
  names_nodup : app.names.Nodup
  shorts_nodup : app.shorts.Nodup
  help_name : "help".data ∈ app.m_flag_options.map (fun value => value.m_name)
  help_short : 'h' ∈ app.m_flag_options.filterMap (fun value => value.m_short_name)

/-- The declarations and name sets of two states agree. -/
def SameRegistry (a b : App) : Prop :=
  a.m_options = b.m_options ∧ a.m_flag_options = b.m_flag_options ∧
    a.m_option_name_set = b.m_option_name_set ∧
    a.m_option_short_name_set = b.m_option_short_name_set

/-- In a state built by successful declarations alone the name sets hold nothing but the
stored names, and nothing has been parsed. -/
structure Exact (app : App) : Prop where
  names_exact : ∀ n ∈ app.m_option_name_set, n ∈ app.names
  shorts_exact : ∀ c ∈ app.m_option_short_name_set, c ∈ app.shorts
  no_arguments : app.m_parsed_arguments = []
  no_options : app.m_parsed_options = []
  no_flags : app.m_parsed_flag_options = []

/-- The object with its three parsed sequences emptied: what is left are the
declarations, the name sets, the program name and the description. -/
def App.clear_parsed (app : App) : App :=
  { app with m_parsed_arguments := [], m_parsed_options := [], m_parsed_flag_options := [] }

/-- The words a parse has accounted for: one per parsed argument, one per parsed flag and
two (the option word and its value) per parsed option. -/
def App.accounted (app : App) : Nat :=
  app.m_parsed_arguments.length + app.m_parsed_flag_options.length +
    2 * app.m_parsed_options.length

/-- The positions at which the loop of `parse` runs its body, in order: `parse_loop` with
the state dropped and the value of `pos` recorded at the start of every round. -/
def App.parse_positions (words : List Str) : Nat → Nat → App → List Nat
  | 0, _, _ => []
  | fuel + 1, pos, app =>
    match words[pos]? with
    | none => []
    | some word =>
      match app.classify word words[pos + 1]? with
      | .next app1 advance => pos :: App.parse_positions words fuel (pos + advance) app1
      | .stop _ _ => [pos]

/-- The maximal non-empty runs of characters that are not separators, in order. -/
def runs (sep : Char → Bool) (line : Str) : List Str :=
  (line.splitOnP sep).filter (fun t => !t.isEmpty)

/-- Whitespace in the sense of C14: space, tab and newline. -/
def is_whitespace (c : Char) : Bool :=
  c = ' ' || c = Char.ofNat 9 || c = Char.ofNat 10

/-- The one separator `parse(const std::string&)` passes to `std::getline`. -/
def is_space (c : Char) : Bool := c = ' '

/-- What the argument registry guarantees: every stored argument has a name, the name is
not empty and is recorded in the argument-name set, and the names are pairwise distinct. -/
structure ArgsRegistered (app : App) : Prop where
  named : ∀ a ∈ app.m_arguments, ∃ n, a.m_name = some n ∧ n ≠ [] ∧ n ∈ app.m_arg_name_set
  args_nodup : (app.m_arguments.map (fun a => a.m_name)).Nodup

/-- No parsed argument and no raw value of a parsed option starts with `-`. -/
def NoDash (app : App) : Prop :=
  (∀ w ∈ app.m_parsed_arguments, App.starts_with "-".data w = false) ∧
    (∀ p ∈ app.m_parsed_options, App.starts_with "-".data p.1 = false)

/-- Two results of `parse` with the same final state and outcomes of the same category:
both returned, both showed the help, or both threw an error of the same kind. -/
def SameKind (r1 r2 : Outcome × App) : Prop :=
  r1.2 = r2.2 ∧ r1.1.kind = r2.1.kind

end chibi

namespace chibi

/-! ## Basic facts -/

@[simp] theorem data_dash_h : "-h".data = ['-', 'h'] := rfl
@[simp] theorem data_dash_help : "--help".data = ['-', '-', 'h', 'e', 'l', 'p'] := rfl
@[simp] theorem data_help : "help".data = ['h', 'e', 'l', 'p'] := rfl
@[simp] theorem data_dash : "-".data = ['-'] := rfl
@[simp] theorem data_dash_dash : "--".data = ['-', '-'] := rfl

theorem SameRegistry.refl (a : App) : SameRegistry a a := ⟨rfl, rfl, rfl, rfl⟩

theorem SameRegistry.trans {a b c : App} (h1 : SameRegistry a b) (h2 : SameRegistry b c) :
    SameRegistry a c :=
  ⟨h1.1.trans h2.1, h1.2.1.trans h2.2.1, h1.2.2.1.trans h2.2.2.1, h1.2.2.2.trans h2.2.2.2⟩

theorem SameRegistry.symm {a b : App} (h : SameRegistry a b) : SameRegistry b a :=
  ⟨h.1.symm, h.2.1.symm, h.2.2.1.symm, h.2.2.2.symm⟩

theorem Registered.of_same {a b : App} (h : SameRegistry a b) (r : Registered a) :
    Registered b := by
  obtain ⟨h1, h2, h3, h4⟩ := h
  have hn : b.names = a.names := by simp [App.names, h1, h2]
  have hs : b.shorts = a.shorts := by simp [App.shorts, h1, h2]
  exact ⟨by rw [hn, ← h3]; exact r.names_mem, by rw [hn]; exact r.names_ne,
    by rw [hs, ← h4]; exact r.shorts_mem, by rw [hn]; exact r.names_nodup,
    by rw [hs]; exact r.shorts_nodup, by rw [← h2]; exact r.help_name,
    by rw [← h2]; exact r.help_short⟩

/-- What `insert_option_names` does, case by case. -/
theorem App.insert_option_names_cases (app : App) (name : Str) (short_name : Option Char) :
    (name = [] ∧ app.insert_option_names name short_name = (.error (.emptyOptionName name), app)) ∨
    (name ≠ [] ∧ name ∈ app.m_option_name_set ∧
      app.insert_option_names name short_name = (.error (.multipleOptionName name), app)) ∨
    (name ≠ [] ∧ name ∉ app.m_option_name_set ∧
      ∃ c, short_name = some c ∧ c ∈ app.m_option_short_name_set ∧
        app.insert_option_names name short_name =
          (.error (.multipleOptionShortName c),
            { app with m_option_name_set := name :: app.m_option_name_set })) ∨
    (name ≠ [] ∧ name ∉ app.m_option_name_set ∧
      (∀ c, short_name = some c → c ∉ app.m_option_short_name_set) ∧
      app.insert_option_names name short_name =
        (.ok, { app with
          m_option_name_set := name :: app.m_option_name_set,
          m_option_short_name_set := short_name.toList ++ app.m_option_short_name_set })) := by
  unfold App.insert_option_names
  by_cases h1 : name = []
  · left; simp [h1]
  · by_cases h2 : name ∈ app.m_option_name_set
    · right; left; simp [h1, h2]
    · cases short_name with
      | none => right; right; right; simp [h1, h2]
      | some c =>
        by_cases h3 : c ∈ app.m_option_short_name_set
        · right; right; left; simp [h1, h2, h3]
        · right; right; right; simp [h1, h2, h3]

/-- A successful `add_opt`: the names were unused and the declaration is appended. -/
theorem App.add_opt_ok {app : App} {name : Str} {short_name : Option Char}
    {description : Option Str} {default_value : Option Value}
    (h : (app.add_opt name short_name description default_value).1 = .ok) :
    name ≠ [] ∧ name ∉ app.m_option_name_set ∧
    (∀ c, short_name = some c → c ∉ app.m_option_short_name_set) ∧
    (app.add_opt name short_name description default_value).2 =
      { app with
        m_option_name_set := name :: app.m_option_name_set,
        m_option_short_name_set := short_name.toList ++ app.m_option_short_name_set,
        m_options := app.m_options ++ [⟨name, short_name, description, default_value⟩] } := by
  rcases app.insert_option_names_cases name short_name with
    ⟨_, e⟩ | ⟨_, _, e⟩ | ⟨_, _, c, _, _, e⟩ | ⟨h1, h2, h3, e⟩
  · simp [App.add_opt, e] at h
  · simp [App.add_opt, e] at h
  · simp [App.add_opt, e] at h
  · exact ⟨h1, h2, h3, by simp [App.add_opt, e]⟩

/-- A successful `add_flag`: the names were unused and the declaration is appended. -/
theorem App.add_flag_ok {app : App} {name : Str} {short_name : Option Char}
    {description : Option Str}
    (h : (app.add_flag name short_name description).1 = .ok) :
    name ≠ [] ∧ name ∉ app.m_option_name_set ∧
    (∀ c, short_name = some c → c ∉ app.m_option_short_name_set) ∧
    (app.add_flag name short_name description).2 =
      { app with
        m_option_name_set := name :: app.m_option_name_set,
        m_option_short_name_set := short_name.toList ++ app.m_option_short_name_set,
        m_flag_options := app.m_flag_options ++ [⟨name, short_name, description⟩] } := by
  rcases app.insert_option_names_cases name short_name with
    ⟨_, e⟩ | ⟨_, _, e⟩ | ⟨_, _, c, _, _, e⟩ | ⟨h1, h2, h3, e⟩
  · simp [App.add_flag, e] at h
  · simp [App.add_flag, e] at h
  · simp [App.add_flag, e] at h
  · exact ⟨h1, h2, h3, by simp [App.add_flag, e]⟩

/-- A failed `add_opt` stores no declaration; at most the name entered the name set. -/
theorem App.add_opt_error {app : App} {name : Str} {short_name : Option Char}
    {description : Option Str} {default_value : Option Value}
    (h : (app.add_opt name short_name description default_value).1 ≠ .ok) :
    (app.add_opt name short_name description default_value).2 = app ∨
    (app.add_opt name short_name description default_value).2 =
      { app with m_option_name_set := name :: app.m_option_name_set } := by
  rcases app.insert_option_names_cases name short_name with
    ⟨_, e⟩ | ⟨_, _, e⟩ | ⟨_, _, c, _, _, e⟩ | ⟨h1, h2, h3, e⟩
  · left; simp [App.add_opt, e]
  · left; simp [App.add_opt, e]
  · right; simp [App.add_opt, e]
  · simp [App.add_opt, e] at h

/-- A failed `add_flag` stores no declaration; at most the name entered the name set. -/
theorem App.add_flag_error {app : App} {name : Str} {short_name : Option Char}
    {description : Option Str}
    (h : (app.add_flag name short_name description).1 ≠ .ok) :
    (app.add_flag name short_name description).2 = app ∨
    (app.add_flag name short_name description).2 =
      { app with m_option_name_set := name :: app.m_option_name_set } := by
  rcases app.insert_option_names_cases name short_name with
    ⟨_, e⟩ | ⟨_, _, e⟩ | ⟨_, _, c, _, _, e⟩ | ⟨h1, h2, h3, e⟩
  · left; simp [App.add_flag, e]
  · left; simp [App.add_flag, e]
  · right; simp [App.add_flag, e]
  · simp [App.add_flag, e] at h

/-- The function `add_arg` touches neither the option registry nor the parsed state. -/
theorem App.add_arg_fields (app : App) (name : Str) (description : Option Str) :
    SameRegistry app (app.add_arg name description).2 ∧
    (app.add_arg name description).2.m_parsed_arguments = app.m_parsed_arguments ∧
    (app.add_arg name description).2.m_parsed_options = app.m_parsed_options ∧
    (app.add_arg name description).2.m_parsed_flag_options = app.m_parsed_flag_options := by
  unfold App.add_arg App.insert_arg_name SameRegistry
  by_cases h1 : name = []
  · simp [h1]
  · by_cases h2 : name ∈ app.m_arg_name_set <;> simp [h1, h2]

theorem Registered.insert_name {app : App} (r : Registered app) (name : Str) :
    Registered { app with m_option_name_set := name :: app.m_option_name_set } :=
  ⟨fun n hn => List.mem_cons_of_mem _ (r.names_mem n hn), r.names_ne, r.shorts_mem,
    r.names_nodup, r.shorts_nodup, r.help_name, r.help_short⟩

theorem Registered.add_opt {app : App} (r : Registered app) (name : Str)
    (short_name : Option Char) (description : Option Str) (default_value : Option Value) :
    Registered (app.add_opt name short_name description default_value).2 := by
  by_cases h : (app.add_opt name short_name description default_value).1 = .ok
  · obtain ⟨h1, h2, h3, e⟩ := App.add_opt_ok h
    rw [e]
    have hfresh : name ∉ app.names := fun hm => h2 (r.names_mem _ hm)
    have hn := r.names_nodup
    have hs := r.shorts_nodup
    simp only [App.names, List.mem_append, not_or] at hfresh
    refine ⟨?_, ?_, ?_, ?_, ?_, r.help_name, r.help_short⟩
    · intro n hn
      have hr := r.names_mem n
      simp only [App.names, List.map_append, List.mem_append, List.mem_cons] at hn hr ⊢
      simp only [List.map_cons, List.map_nil, List.mem_singleton] at hn
      rcases hn with (hn | hn) | hn
      · exact Or.inr (hr (Or.inl hn))
      · exact Or.inl hn
      · exact Or.inr (hr (Or.inr hn))
    · intro n hn
      have hr := r.names_ne n
      simp only [App.names, List.map_append, List.mem_append, List.mem_cons] at hn hr
      simp only [List.map_cons, List.map_nil, List.mem_singleton] at hn
      rcases hn with (hn | hn) | hn
      · exact hr (Or.inl hn)
      · exact hn ▸ h1
      · exact hr (Or.inr hn)
    · intro c hc
      have hr := r.shorts_mem c
      simp only [App.shorts, List.filterMap_append, List.mem_append] at hc hr ⊢
      rcases hc with (hc | hc) | hc
      · exact Or.inr (hr (Or.inl hc))
      · cases short_name with
        | none => simp at hc
        | some d =>
          simp at hc
          simp [hc]
      · exact Or.inr (hr (Or.inr hc))
    · simp only [App.names, List.map_append, List.map_cons, List.map_nil] at hn ⊢
      rw [List.nodup_append] at hn ⊢
      obtain ⟨ha, hb, hd⟩ := hn
      refine ⟨?_, hb, ?_⟩
      · rw [List.nodup_append]
        exact ⟨ha, List.nodup_singleton _, by simpa using hfresh.1⟩
      · intro x hx hx2
        rw [List.mem_append, List.mem_singleton] at hx
        rcases hx with hx | hx
        · exact hd hx hx2
        · exact hfresh.2 (hx ▸ hx2)
    · cases short_name with
      | none => simpa [App.shorts] using hs
      | some d =>
        have hd : d ∉ app.shorts := fun hm => h3 d rfl (r.shorts_mem _ hm)
        simp only [App.shorts, List.mem_append, not_or] at hd
        simp only [App.shorts, List.filterMap_append, List.filterMap_cons,
          List.filterMap_nil] at hs ⊢
        rw [List.nodup_append] at hs ⊢
        obtain ⟨ha, hb, hdis⟩ := hs
        refine ⟨?_, hb, ?_⟩
        · rw [List.nodup_append]
          exact ⟨ha, List.nodup_singleton _, by simpa using hd.1⟩
        · intro x hx hx2
          rw [List.mem_append, List.mem_singleton] at hx
          rcases hx with hx | hx
          · exact hdis hx hx2
          · exact hd.2 (hx ▸ hx2)
  · rcases App.add_opt_error h with e | e
    · rw [e]; exact r
    · rw [e]; exact r.insert_name name

theorem Registered.add_flag {app : App} (r : Registered app) (name : Str)
    (short_name : Option Char) (description : Option Str) :
    Registered (app.add_flag name short_name description).2 := by
  by_cases h : (app.add_flag name short_name description).1 = .ok
  · obtain ⟨h1, h2, h3, e⟩ := App.add_flag_ok h
    rw [e]
    have hfresh : name ∉ app.names := fun hm => h2 (r.names_mem _ hm)
    have hn : ({ app with
        m_option_name_set := name :: app.m_option_name_set,
        m_option_short_name_set := short_name.toList ++ app.m_option_short_name_set,
        m_flag_options := app.m_flag_options ++ [⟨name, short_name, description⟩] } : App).names
        = app.names ++ [name] := by simp [App.names]
    have hs : ({ app with
        m_option_name_set := name :: app.m_option_name_set,
        m_option_short_name_set := short_name.toList ++ app.m_option_short_name_set,
        m_flag_options := app.m_flag_options ++ [⟨name, short_name, description⟩] } : App).shorts
        = app.shorts ++ short_name.toList := by
      cases short_name <;> simp [App.shorts]
    refine ⟨?_, ?_, ?_, ?_, ?_, ?_, ?_⟩
    · intro n hm
      rw [hn, List.mem_append, List.mem_singleton] at hm
      rcases hm with hm | hm
      · exact List.mem_cons_of_mem _ (r.names_mem n hm)
      · simp [hm]
    · intro n hm
      rw [hn, List.mem_append, List.mem_singleton] at hm
      rcases hm with hm | hm
      · exact r.names_ne n hm
      · exact hm ▸ h1
    · intro c hm
      rw [hs, List.mem_append] at hm
      rcases hm with hm | hm
      · exact List.mem_append_right _ (r.shorts_mem c hm)
      · exact List.mem_append_left _ hm
    · rw [hn, List.nodup_append]
      refine ⟨r.names_nodup, List.nodup_singleton _, ?_⟩
      intro x hx hx2
      rw [List.mem_singleton] at hx2
      exact hfresh (hx2 ▸ hx)
    · rw [hs, List.nodup_append]
      refine ⟨r.shorts_nodup, ?_, ?_⟩
      · cases short_name <;> simp
      · intro x hx hx2
        cases short_name with
        | none => simp at hx2
        | some d =>
          simp at hx2
          exact h3 d rfl (r.shorts_mem _ (hx2 ▸ hx))
    · have := r.help_name
      simp only [List.map_append, List.mem_append]
      exact Or.inl this
    · have := r.help_short
      simp only [List.filterMap_append, List.mem_append]
      exact Or.inl this
  · rcases App.add_flag_error h with e | e
    · rw [e]; exact r
    · rw [e]; exact r.insert_name name

/-- The constructor returns normally, with the help flag as the only declaration. -/
theorem App.new_eq (app_name description : Option Str) :
    App.new app_name description =
      (.ok, { App.init app_name description with
        m_flag_options := [⟨"help".data, some 'h', some "Print help information".data⟩],
        m_option_name_set := ["help".data],
        m_option_short_name_set := ['h'] }) := by
  simp [App.new, App.add_flag, App.insert_option_names, App.init]

theorem Registered.new (app_name description : Option Str) :
    Registered (App.new app_name description).2 := by
  rw [App.new_eq]
  refine ⟨?_, ?_, ?_, ?_, ?_, ?_, ?_⟩ <;> simp [App.names, App.shorts, App.init]

/-- A round of the loop that goes on moves one or two words ahead and leaves the
declarations and the name sets alone. -/
theorem App.classify_next {app a : App} {word : Str} {next_word : Option Str} {k : Nat}
    (h : app.classify word next_word = .next a k) :
    SameRegistry app a ∧ (k = 1 ∨ k = 2) := by
  simp only [App.classify, App.dispatch, App.bind_value] at h
  repeat' split at h
  all_goals first
    | (injection h with h1 h2; subst h1; subst h2; exact ⟨⟨rfl, rfl, rfl, rfl⟩, by simp⟩)
    | cases h

/-- A round of the loop that leaves `parse` has changed nothing. -/
theorem App.classify_stop {app a : App} {word : Str} {next_word : Option Str} {o : Outcome}
    (h : app.classify word next_word = .stop o a) : a = app := by
  simp only [App.classify, App.dispatch, App.bind_value] at h
  repeat' split at h
  all_goals first
    | (injection h with h1 h2; exact h2.symm)
    | cases h

/-! ## The loop of `parse` -/

/-- The loop only looks at the words from `pos` on, and any fuel of at least `n - pos`
gives the same result: the loop never runs out of fuel in `parse`. -/
theorem App.parse_loop_congr : ∀ (fuel fuel1 : Nat) (ws ws1 : List Str) (pos pos1 : Nat)
    (app : App), ws.drop pos = ws1.drop pos1 → ws.length - pos ≤ fuel →
    ws1.length - pos1 ≤ fuel1 →
    App.parse_loop ws fuel pos app = App.parse_loop ws1 fuel1 pos1 app := by
  intro fuel
  induction fuel with
  | zero =>
    intro fuel1 ws ws1 pos pos1 app hd hf hf1
    have h0 : ws.drop pos = [] := List.drop_eq_nil_of_le (by omega)
    have h1 : ws1[pos1]? = none := by
      have := congrArg (fun l => l[0]?) hd
      simp only [List.getElem?_drop, h0] at this
      simpa using this.symm
    cases fuel1 with
    | zero => rfl
    | succ f => simp [App.parse_loop, h1]
  | succ fuel ih =>
    intro fuel1 ws ws1 pos pos1 app hd hf hf1
    have e0 : ws[pos]? = ws1[pos1]? := by
      have := congrArg (fun l => l[0]?) hd
      simpa only [List.getElem?_drop, Nat.add_zero] using this
    have e1 : ws[pos + 1]? = ws1[pos1 + 1]? := by
      have := congrArg (fun l => l[1]?) hd
      simpa only [List.getElem?_drop] using this
    cases fuel1 with
    | zero =>
      have h0 : ws1.drop pos1 = [] := List.drop_eq_nil_of_le (by omega)
      have h1 : ws[pos]? = none := by
        rw [e0]; exact List.getElem?_eq_none (by omega)
      simp [App.parse_loop, h1]
    | succ f =>
      simp only [App.parse_loop, e0, e1]
      cases hw : ws1[pos1]? with
      | none => rfl
      | some word =>
        simp only
        have hlt : pos < ws.length := by
          by_contra hc
          have : ws[pos]? = none := List.getElem?_eq_none (by omega)
          rw [e0, hw] at this
          cases this
        have hlt1 : pos1 < ws1.length := by
          by_contra hc
          have : ws1[pos1]? = none := List.getElem?_eq_none (by omega)
          rw [hw] at this
          cases this
        cases hc : app.classify word ws1[pos1 + 1]? with
        | stop o a => rfl
        | next a k =>
          simp only
          have hk := (App.classify_next hc).2
          apply ih
          · have := congrArg (List.drop k) hd
            simpa only [List.drop_drop, Nat.add_comm] using this
          · omega
          · omega

/-- Fuel beyond `n - pos` changes nothing: the loop has ended by then. -/
theorem App.parse_loop_fuel (words : List Str) (fuel pos : Nat) (app : App)
    (h : words.length - pos ≤ fuel) :
    App.parse_loop words fuel pos app = App.parse_loop words (words.length - pos) pos app :=
  App.parse_loop_congr fuel (words.length - pos) words words pos pos app rfl h le_rfl

theorem App.parse_nil (app : App) : app.parse [] = (.ok, app) := rfl

/-- One round of the loop, seen from the word list: the first word is classified with
the second as its possible value, and the scan goes on behind what was consumed. -/
theorem App.parse_cons (app : App) (word : Str) (rest : List Str) :
    app.parse (word :: rest) =
      match app.classify word rest.head? with
      | .next a k => a.parse (rest.drop (k - 1))
      | .stop o a => (o, a) := by
  have e1 : (word :: rest)[0 + 1]? = rest.head? := by
    cases rest <;> simp
  simp only [App.parse, List.length_cons, App.parse_loop, List.getElem?_cons_zero, e1]
  cases hc : app.classify word rest.head? with
  | stop o a => rfl
  | next a k =>
    simp only
    have hk := (App.classify_next hc).2
    apply App.parse_loop_congr
    · rcases hk with hk | hk <;> subst hk <;> simp
    · simp only [List.length_cons]; omega
    · simp

/-- The function `parse` touches neither the declarations nor the name sets. -/
theorem App.parse_same : ∀ (n : Nat) (words : List Str) (app : App), words.length ≤ n →
    SameRegistry app (app.parse words).2 := by
  intro n
  induction n with
  | zero =>
    intro words app h
    have : words = [] := List.eq_nil_of_length_eq_zero (by omega)
    subst this
    exact SameRegistry.refl app
  | succ n ih =>
    intro words app h
    cases words with
    | nil => exact SameRegistry.refl app
    | cons word rest =>
      rw [App.parse_cons]
      cases hc : app.classify word rest.head? with
      | stop o a =>
        simp only
        rw [App.classify_stop hc]
        exact SameRegistry.refl app
      | next a k =>
        simp only
        refine (App.classify_next hc).1.trans (ih _ _ ?_)
        simp only [List.length_cons, List.length_drop] at h ⊢
        omega

theorem Registered.parse {app : App} (r : Registered app) (words : List Str) :
    Registered (app.parse words).2 :=
  r.of_same (App.parse_same words.length words app le_rfl)

theorem Registered.add_arg {app : App} (r : Registered app) (name : Str)
    (description : Option Str) : Registered (app.add_arg name description).2 :=
  r.of_same (App.add_arg_fields app name description).1

/-- The registry guarantees hold in every reachable state. -/
theorem Reachable.is_registered {app : App} (h : Reachable app) : Registered app := by
  induction h with
  | new n d => exact Registered.new n d
  | add_arg name d _ ih => exact ih.add_arg name d
  | add_opt name s d v _ ih => exact ih.add_opt name s d v
  | add_flag name s d _ ih => exact ih.add_flag name s d
  | parse words _ ih => exact ih.parse words
  | parse_line line _ ih => exact ih.parse _

theorem Declared.reachable {app : App} (h : Declared app) : Reachable app := by
  induction h with
  | new n d => exact Reachable.new n d
  | add_arg name d _ _ ih => exact ih.add_arg name d
  | add_opt name s d v _ _ ih => exact ih.add_opt name s d v
  | add_flag name s d _ _ ih => exact ih.add_flag name s d

theorem Declared.to_registered {app : App} (h : Declared app) : Registered app :=
  h.reachable.is_registered

/-- After successful declarations alone the name sets are exact and nothing is parsed. -/
theorem Declared.exact {app : App} (h : Declared app) : Exact app := by
  induction h with
  | new n d =>
    rw [App.new_eq]
    refine ⟨?_, ?_, rfl, rfl, rfl⟩ <;> simp [App.names, App.shorts, App.init]
  | @add_arg app name d _ _ ih =>
    obtain ⟨⟨h1, h2, h3, h4⟩, h5, h6, h7⟩ := App.add_arg_fields app name d
    have hn : (app.add_arg name d).2.names = app.names := by simp [App.names, ← h1, ← h2]
    have hs : (app.add_arg name d).2.shorts = app.shorts := by simp [App.shorts, ← h1, ← h2]
    exact ⟨by rw [hn, ← h3]; exact ih.names_exact, by rw [hs, ← h4]; exact ih.shorts_exact,
      by rw [h5]; exact ih.no_arguments, by rw [h6]; exact ih.no_options,
      by rw [h7]; exact ih.no_flags⟩
  | @add_opt app name s d v _ hok ih =>
    obtain ⟨_, _, _, e⟩ := App.add_opt_ok hok
    rw [e]
    refine ⟨?_, ?_, ih.no_arguments, ih.no_options, ih.no_flags⟩
    · intro n hn
      have := ih.names_exact n
      simp only [App.names, List.mem_cons, List.map_append, List.mem_append, List.map_cons,
        List.map_nil, List.mem_singleton] at hn this ⊢
      rcases hn with hn | hn
      · exact Or.inl (Or.inr (Or.inl hn))
      · rcases this hn with t | t
        · exact Or.inl (Or.inl t)
        · exact Or.inr t
    · intro c hc
      have := ih.shorts_exact c
      simp only [App.shorts, List.mem_append, List.filterMap_append] at hc this ⊢
      rcases hc with hc | hc
      · cases s with
        | none => simp at hc
        | some x =>
          simp at hc
          subst hc
          exact Or.inl (Or.inr (by simp))
      · rcases this hc with t | t
        · exact Or.inl (Or.inl t)
        · exact Or.inr t
  | @add_flag app name s d _ hok ih =>
    obtain ⟨_, _, _, e⟩ := App.add_flag_ok hok
    rw [e]
    refine ⟨?_, ?_, ih.no_arguments, ih.no_options, ih.no_flags⟩
    · intro n hn
      have := ih.names_exact n
      simp only [App.names, List.mem_cons, List.map_append, List.mem_append, List.map_cons,
        List.map_nil, List.mem_singleton] at hn this ⊢
      rcases hn with hn | hn
      · exact Or.inr (Or.inr (Or.inl hn))
      · rcases this hn with t | t
        · exact Or.inl t
        · exact Or.inr (Or.inl t)
    · intro c hc
      have := ih.shorts_exact c
      simp only [App.shorts, List.mem_append, List.filterMap_append] at hc this ⊢
      rcases hc with hc | hc
      · cases s with
        | none => simp at hc
        | some x =>
          simp at hc
          subst hc
          exact Or.inr (Or.inr (by simp))
      · rcases this hc with t | t
        · exact Or.inl t
        · exact Or.inr (Or.inl t)

/-- The sample program's declarations all return normally. -/
theorem sample_declared : Declared sample.2 := by
  have h0 := Declared.new (some "sample".data)
    (some "Calcualte \"left\" [operation] \"med\" [operation] \"right\"".data)
  have h1 := Declared.add_arg "op1".data (some "First operation".data) h0 (by decide)
  have h2 := Declared.add_arg "op2".data (some "Second operation".data) h1 (by decide)
  have h3 := Declared.add_opt "left".data (some 'l') (some "Left number".data)
    (some (.integer .int 20)) h2 (by decide)
  have h4 := Declared.add_opt "med".data (some 'm') (some "Med number".data)
    (some (.integer .int (-100))) h3 (by decide)
  have h5 := Declared.add_opt "right".data (some 'r') (some "Right number".data)
    (some (.integer .int 0)) h4 (by decide)
  exact Declared.add_flag "verbose".data (some 'v') (some "Verbose mode".data) h5 (by decide)

/-! ## Declaring a name twice -/

/-- A declaration whose short name is already in the short-name set fails, whatever the
name is. -/
theorem App.insert_option_names_short_taken (app : App) (name : Str) (c : Char)
    (hc : c ∈ app.m_option_short_name_set) :
    (app.insert_option_names name (some c)).1.isError = true := by
  rcases app.insert_option_names_cases name (some c) with
    ⟨_, e⟩ | ⟨_, _, e⟩ | ⟨_, _, d, _, _, e⟩ | ⟨_, _, h3, _⟩
  · rw [e]; rfl
  · rw [e]; rfl
  · rw [e]; rfl
  · exact absurd hc (h3 c rfl)

/-- C1: in an `App` built by successful declarations (the constructor's help flag
included), `add_opt` and `add_flag` both fail with the duplicate-name error when the name
is that of a stored option or flag, and both fail when the short name is that of a stored
option or flag, whichever kind was stored and whichever kind is being declared. On a
freshly constructed `App` the name `help` and the short name `h` are refused. -/
theorem duplicate_declaration_fails {app : App} (h : Declared app) (name : Str)
    (short_name : Option Char) (description : Option Str) (default_value : Option Value) :
    (name ∈ app.names →
      (app.add_opt name short_name description default_value).1
        = .error (.multipleOptionName name) ∧
      (app.add_flag name short_name description).1 = .error (.multipleOptionName name)) ∧
    (∀ c, short_name = some c → c ∈ app.shorts →
      (app.add_opt name short_name description default_value).1.isError = true ∧
      (app.add_flag name short_name description).1.isError = true) ∧
    (∀ app_name app_description : Option Str,
      ((App.new app_name app_description).2.add_opt "help".data short_name description
          default_value).1 = .error (.multipleOptionName "help".data) ∧
      ((App.new app_name app_description).2.add_flag "help".data short_name description).1
        = .error (.multipleOptionName "help".data) ∧
      ((App.new app_name app_description).2.add_opt name (some 'h') description
          default_value).1.isError = true ∧
      ((App.new app_name app_description).2.add_flag name (some 'h') description).1.isError
        = true) := by
  have key : ∀ a : App, Registered a →
      (name ∈ a.names →
        (a.add_opt name short_name description default_value).1
          = .error (.multipleOptionName name) ∧
        (a.add_flag name short_name description).1 = .error (.multipleOptionName name)) := by
    intro a r hm
    have h1 := r.names_ne name hm
    have h2 := r.names_mem name hm
    constructor <;> simp [App.add_opt, App.add_flag, App.insert_option_names, h1, h2]
  have key2 : ∀ (a : App) (nm : Str), Registered a → ∀ c, c ∈ a.shorts →
      (a.add_opt nm (some c) description default_value).1.isError = true ∧
      (a.add_flag nm (some c) description).1.isError = true := by
    intro a nm r c hm
    have h3 := App.insert_option_names_short_taken a nm c (r.shorts_mem c hm)
    constructor
    · unfold App.add_opt
      revert h3
      cases a.insert_option_names nm (some c) with
      | mk o b => cases o <;> simp [Outcome.isError]
    · unfold App.add_flag
      revert h3
      cases a.insert_option_names nm (some c) with
      | mk o b => cases o <;> simp [Outcome.isError]
  refine ⟨key app h.to_registered, ?_, ?_⟩
  · intro c hc hm
    subst hc
    exact key2 app name h.to_registered c hm
  · intro an ad
    have r := Registered.new an ad
    have hn : "help".data ∈ (App.new an ad).2.names := by
      rw [App.new_eq]; simp [App.names, App.init]
    have hs : 'h' ∈ (App.new an ad).2.shorts := by
      rw [App.new_eq]; simp [App.shorts, App.init]
    have k1 : ((App.new an ad).2.add_opt "help".data short_name description
          default_value).1 = .error (.multipleOptionName "help".data) ∧
        ((App.new an ad).2.add_flag "help".data short_name description).1
          = .error (.multipleOptionName "help".data) := by
      have h1 := r.names_ne _ hn
      have h2 := r.names_mem _ hn
      constructor <;> simp [App.add_opt, App.add_flag, App.insert_option_names, h1, h2]
    exact ⟨k1.1, k1.2, (key2 _ name r 'h' hs).1, (key2 _ name r 'h' hs).2⟩

/-- C1 at the sample program: after its declarations, a flag named `left` and an option
with the short name `v` are both refused. -/
theorem duplicate_declaration_fails_witness :
    Declared sample.2 ∧
    ((sample.2.add_flag "left".data (some 'x') none).1
      = .error (.multipleOptionName "left".data)) ∧
    (sample.2.add_opt "other".data (some 'v') none none).1.isError = true := by
  have hd := sample_declared
  have t := duplicate_declaration_fails hd "left".data (some 'x') none none
  have t2 := duplicate_declaration_fails hd "other".data (some 'v') none none
  exact ⟨hd, (t.1 (by decide)).2, (t2.2.1 'v' rfl (by decide)).1⟩

/-! ## Words that are not options -/

theorem App.starts_with_dash (word : Str) :
    App.starts_with "-".data word = true ↔ ∃ t, word = '-' :: t := by
  cases word with
  | nil => simp [App.starts_with]
  | cons c t =>
    simp only [App.starts_with, data_dash, List.isPrefixOf, Bool.and_true, beq_iff_eq,
      List.cons.injEq, exists_and_left, exists_eq', and_true]
    exact eq_comm

theorem App.starts_with_dash_dash (word : Str) :
    App.starts_with "--".data word = true ↔ ∃ t, word = '-' :: '-' :: t := by
  cases word with
  | nil => simp [App.starts_with]
  | cons c t =>
    cases t with
    | nil => simp [App.starts_with, List.isPrefixOf]
    | cons d u =>
      simp only [App.starts_with, data_dash_dash, List.isPrefixOf, Bool.and_true,
        Bool.and_eq_true, beq_iff_eq, List.cons.injEq, exists_and_left, exists_eq', and_true]
      constructor
      · rintro ⟨h1, h2⟩; exact ⟨h1.symm, h2.symm⟩
      · rintro ⟨h1, h2⟩; exact ⟨h1.symm, h2.symm⟩

/-- A word that does not start with `-` is appended to the parsed arguments. -/
theorem App.classify_positional (app : App) (word : Str) (next_word : Option Str)
    (h : App.starts_with "-".data word = false) :
    app.classify word next_word =
      .next { app with m_parsed_arguments := app.m_parsed_arguments ++ [word] } 1 := by
  have h1 : ¬ ∃ t, word = '-' :: t := by
    rw [← App.starts_with_dash]; simp [h]
  have h2 : App.starts_with "--".data word = false := by
    rw [Bool.eq_false_iff, Ne, App.starts_with_dash_dash]
    rintro ⟨t, rfl⟩
    exact h1 ⟨_, rfl⟩
  have h3 : word ≠ ['-', 'h'] := fun e => h1 ⟨_, e⟩
  have h4 : word ≠ ['-', '-', 'h', 'e', 'l', 'p'] := fun e => h1 ⟨_, e⟩
  simp [App.classify, h, h2, h3, h4]

/-- C2: when no word starts with `-`, `parse` returns normally, the words are appended in
their order to the parsed arguments and nothing else in the object changes; on an object
that has no parsed arguments yet, the parsed arguments are the word list itself. -/
theorem parse_positional_identity (app : App) (words : List Str)
    (h : ∀ w ∈ words, App.starts_with "-".data w = false) :
    app.parse words
      = (.ok, { app with m_parsed_arguments := app.m_parsed_arguments ++ words }) ∧
    (app.parse words).2.m_parsed_options = app.m_parsed_options ∧
    (app.parse words).2.m_parsed_flag_options = app.m_parsed_flag_options ∧
    (app.m_parsed_arguments = [] → (app.parse words).2.m_parsed_arguments = words) := by
  have key : ∀ (ws : List Str) (a : App), (∀ w ∈ ws, App.starts_with "-".data w = false) →
      a.parse ws = (.ok, { a with m_parsed_arguments := a.m_parsed_arguments ++ ws }) := by
    intro ws
    induction ws with
    | nil => intro a _; simp [App.parse_nil]
    | cons w rest ih =>
      intro a hw
      rw [App.parse_cons, App.classify_positional a w _ (hw w (List.mem_cons_self _ _))]
      simp only [Nat.sub_self, List.drop_zero]
      rw [ih _ (fun x hx => hw x (List.mem_cons_of_mem _ hx))]
      simp
  rw [key words app h]
  refine ⟨rfl, rfl, rfl, ?_⟩
  intro h0
  simp [h0]

/-- C2 at the sample program: two plain words become the two parsed arguments. -/
theorem parse_positional_identity_witness :
    (sample.2.parse ["add".data, "sub".data]).1 = .ok ∧
    (sample.2.parse ["add".data, "sub".data]).2.m_parsed_arguments
      = ["add".data, "sub".data] := by
  have t := parse_positional_identity sample.2 ["add".data, "sub".data] (by decide)
  exact ⟨by rw [t.1], t.2.2.2 (by decide)⟩

/-! ## Typed accessors -/

theorem App.get_opt_parsed_first (T : Kind) (name word : Str) (value : OptionValue)
    (pre post : List (Str × OptionValue)) (hv : value.m_name = name)
    (hpre : ∀ p ∈ pre, p.2.m_name ≠ name) :
    App.get_opt_parsed T name (pre ++ (word, value) :: post) = some (cast T word) := by
  induction pre with
  | nil => simp [App.get_opt_parsed, hv]
  | cons p pre ih =>
    obtain ⟨w, v⟩ := p
    have h1 : v.m_name ≠ name := hpre (w, v) (List.mem_cons_self _ _)
    simp only [List.cons_append, App.get_opt_parsed, h1, if_false]
    exact ih (fun q hq => hpre q (List.mem_cons_of_mem _ hq))

theorem App.get_opt_parsed_none (T : Kind) (name : Str) (l : List (Str × OptionValue))
    (h : ∀ p ∈ l, p.2.m_name ≠ name) : App.get_opt_parsed T name l = none := by
  induction l with
  | nil => rfl
  | cons p l ih =>
    obtain ⟨w, v⟩ := p
    have h1 : v.m_name ≠ name := h (w, v) (List.mem_cons_self _ _)
    simp only [App.get_opt_parsed, h1, if_false]
    exact ih (fun q hq => h q (List.mem_cons_of_mem _ hq))

theorem App.get_opt_default_none (T : Kind) (name : Str) (l : List OptionValue)
    (h : ∀ o ∈ l, o.m_name = name → o.m_default_value = none) :
    App.get_opt_default T name l = none := by
  induction l with
  | nil => rfl
  | cons o l ih =>
    have ih1 := ih (fun q hq => h q (List.mem_cons_of_mem _ hq))
    by_cases h1 : o.m_name = name
    · simp [App.get_opt_default, h1, h o (List.mem_cons_self _ _) h1, ih1]
    · simp [App.get_opt_default, h1, ih1]

theorem App.get_opt_default_unique (T : Kind) (name : Str) (opt : OptionValue)
    (l : List OptionValue) (hm : opt ∈ l) (hn : opt.m_name = name)
    (hu : ∀ o ∈ l, o.m_name = name → o = opt) :
    App.get_opt_default T name l = opt.m_default_value.map (Value.get T) := by
  induction l with
  | nil => cases hm
  | cons o l ih =>
    by_cases h1 : o.m_name = name
    · have e := hu o (List.mem_cons_self _ _) h1
      subst e
      cases hd : o.m_default_value with
      | some d => simp [App.get_opt_default, h1, hd]
      | none =>
        simp only [App.get_opt_default, h1, if_true, hd, Option.map_none']
        apply App.get_opt_default_none
        intro q hq hqn
        rw [hu q (List.mem_cons_of_mem _ hq) hqn]
        exact hd
    · have hm1 : opt ∈ l := by
        rcases List.mem_cons.mp hm with e | e
        · exact absurd (e ▸ hn) h1
        · exact e
      simp only [App.get_opt_default, h1, if_false]
      exact ih hm1 (fun q hq => hu q (List.mem_cons_of_mem _ hq))

/-- In a registered state a stored option is the only stored option of its name. -/
theorem Registered.option_unique {app : App} (r : Registered app) {o1 o2 : OptionValue}
    (h1 : o1 ∈ app.m_options) (h2 : o2 ∈ app.m_options) (e : o1.m_name = o2.m_name) :
    o1 = o2 := by
  have hn := r.names_nodup
  simp only [App.names] at hn
  exact List.inj_on_of_nodup_map (List.nodup_append.mp hn).1 h1 h2 e

/-- C4: `get_opt<T>(name)` returns `cast<T>` of the raw token of the first parsed entry
whose declaration has that name (a failing coercion is the result, with no fallback);
when no parsed entry has that name, it returns the default of the stored option of that
name when the default holds the alternative `T`, and `std::nullopt` when that option has
no default or no option has that name. After parsing `--left 5 --left 7`,
`get_opt<int>("left")` is `5`. -/
theorem get_opt_first_match_or_default (app : App) (T : Kind) (name : Str) :
    (∀ (pre post : List (Str × OptionValue)) (word : Str) (value : OptionValue),
      app.m_parsed_options = pre ++ (word, value) :: post → value.m_name = name →
      (∀ p ∈ pre, p.2.m_name ≠ name) →
      app.get_opt T name = (cast T word).map some) ∧
    ((∀ p ∈ app.m_parsed_options, p.2.m_name ≠ name) →
      (Reachable app → ∀ opt ∈ app.m_options, opt.m_name = name →
        (∀ d, opt.m_default_value = some d → d.kind = T →
          app.get_opt T name = .ok (some d)) ∧
        (opt.m_default_value = none → app.get_opt T name = .ok none)) ∧
      ((∀ opt ∈ app.m_options, opt.m_name ≠ name) → app.get_opt T name = .ok none)) ∧
    (sample.2.parse ["--left".data, "5".data, "--left".data, "7".data]).2.get_opt
      (.integer .int) "left".data = .ok (some (.integer .int 5)) := by
  refine ⟨?_, ?_, by decide⟩
  · intro pre post word value hp hv hpre
    simp only [App.get_opt, hp, App.get_opt_parsed_first T name word value pre post hv hpre]
  · intro hnone
    have h0 := App.get_opt_parsed_none T name _ hnone
    refine ⟨?_, ?_⟩
    · intro hr opt hm hn
      have hu : ∀ o ∈ app.m_options, o.m_name = name → o = opt :=
        fun o ho e => hr.is_registered.option_unique ho hm (e.trans hn.symm)
      have h1 := App.get_opt_default_unique T name opt _ hm hn hu
      refine ⟨?_, ?_⟩
      · intro d hd hk
        simp [App.get_opt, h0, h1, hd, Value.get, hk, Except.map]
      · intro hd
        simp [App.get_opt, h0, h1, hd]
    · intro hno
      have h1 := App.get_opt_default_none T name app.m_options
        (fun o ho e => absurd e (hno o ho))
      simp [App.get_opt, h0, h1]

/-- The function `cast<T>` throws nothing but `std::bad_cast`. -/
theorem cast_error (T : Kind) (word : Str) (e : Error) (h : cast T word = .error e) :
    e = .badCast := by
  cases T <;> simp only [cast] at h <;> (repeat' split at h) <;> cases h <;> rfl

/-- C8: for an `int` index and a parsed-argument vector of a size a `std::vector` can have,
`get_arg<T>(index)` fails with the invalid-access error exactly when the index is negative
(the comparison sees it as a huge unsigned number) or not below the number of parsed
arguments; otherwise it returns `cast<T>` of the parsed argument at that index. It never
changes the object. -/
theorem get_arg_index_check (app : App) (T : Kind) (index : Int) (hi : IsInt index)
    (hsize : app.m_parsed_arguments.length ≤ vector_max_size) :
    ((app.get_arg T index).1 = .error .invalidAccessArgument ↔
      (index < 0 ∨ (app.m_parsed_arguments.length : Int) ≤ index)) ∧
    (0 ≤ index → index < app.m_parsed_arguments.length →
      ∃ word, app.m_parsed_arguments[index.toNat]? = some word ∧
        (app.get_arg T index).1 = cast T word) ∧
    (app.get_arg T index).2 = app := by
  obtain ⟨hlo, hhi⟩ := hi
  have hmin : IntKind.int.min = -2147483648 := by decide
  have hmax : IntKind.int.max = 2147483647 := by decide
  have hvs : vector_max_size = 9223372036854775807 := by decide
  rw [hmin] at hlo
  rw [hmax] at hhi
  rw [hvs] at hsize
  have hpow : (2 ^ 64 : Int) = 18446744073709551616 := by norm_num
  by_cases hneg : index < 0
  · have hconv : (index % (2 ^ 64 : Int)).toNat = (index + 18446744073709551616).toNat := by
      rw [hpow]
      congr 1
      omega
    have hge : ¬ (index % (2 ^ 64 : Int)).toNat < app.m_parsed_arguments.length := by
      rw [hconv]; omega
    have e : app.get_arg T index = (.error .invalidAccessArgument, app) := by
      simp only [App.get_arg, hge, if_false]
    rw [e]
    exact ⟨⟨fun _ => Or.inl hneg, fun _ => rfl⟩, fun h => absurd h (by omega), rfl⟩
  · have hconv : (index % (2 ^ 64 : Int)).toNat = index.toNat := by
      rw [hpow]
      congr 1
      omega
    by_cases hlt : index < app.m_parsed_arguments.length
    · have hlt2 : index.toNat < app.m_parsed_arguments.length := by omega
      have hget : app.m_parsed_arguments[index.toNat]?
          = some (app.m_parsed_arguments[index.toNat]) := List.getElem?_eq_getElem hlt2
      have e : app.get_arg T index = (cast T (app.m_parsed_arguments[index.toNat]), app) := by
        simp only [App.get_arg, hconv, hlt2, if_true, hget]
      rw [e]
      refine ⟨⟨?_, ?_⟩, fun _ _ => ⟨_, hget, rfl⟩, rfl⟩
      · intro hc
        have := cast_error _ _ _ hc
        cases this
      · intro hc
        omega
    · have hge : ¬ (index % (2 ^ 64 : Int)).toNat < app.m_parsed_arguments.length := by
        rw [hconv]; omega
      have e : app.get_arg T index = (.error .invalidAccessArgument, app) := by
        simp only [App.get_arg, hge, if_false]
      rw [e]
      exact ⟨⟨fun _ => Or.inr (by omega), fun _ => rfl⟩, fun _ h => absurd h hlt, rfl⟩

/-- C8 at the sample program: after parsing `add sub`, index `1` gives `sub` and index `-1`
is refused. -/
theorem get_arg_index_check_witness :
    ((sample.2.parse ["add".data, "sub".data]).2.get_arg .string 1).1
      = .ok (.string "sub".data) ∧
    ((sample.2.parse ["add".data, "sub".data]).2.get_arg .string (-1)).1
      = .error .invalidAccessArgument := by
  have t1 := get_arg_index_check (sample.2.parse ["add".data, "sub".data]).2 .string 1
    (by decide) (by decide)
  have t2 := get_arg_index_check (sample.2.parse ["add".data, "sub".data]).2 .string (-1)
    (by decide) (by decide)
  obtain ⟨w, hw, e⟩ := t1.2.1 (by decide) (by decide)
  have hw2 : w = "sub".data := by
    have : (sample.2.parse ["add".data, "sub".data]).2.m_parsed_arguments[(1 : Int).toNat]?
        = some "sub".data := by decide
    rw [this] at hw
    exact (Option.some.inj hw).symm
  subst hw2
  exact ⟨e.trans (by decide), t2.1.mpr (Or.inl (by decide))⟩

/-- C10: the sample program's declarations, then `parse(add sub --left 5)`: the call
returns normally, the parsed arguments are `add`, `sub`, the option `left` is `5`, `med` and
`right` fall back to their defaults `-100` and `0`, and the flag `verbose` is not set. -/
theorem sample_scenario :
    sample.1 = .ok ∧
    (sample.2.parse ["add".data, "sub".data, "--left".data, "5".data]).1 = .ok ∧
    (sample.2.parse ["add".data, "sub".data, "--left".data, "5".data]).2.m_parsed_arguments
      = ["add".data, "sub".data] ∧
    (sample.2.parse ["add".data, "sub".data, "--left".data, "5".data]).2.get_opt
      (.integer .int) "left".data = .ok (some (.integer .int 5)) ∧
    (sample.2.parse ["add".data, "sub".data, "--left".data, "5".data]).2.get_opt
      (.integer .int) "med".data = .ok (some (.integer .int (-100))) ∧
    (sample.2.parse ["add".data, "sub".data, "--left".data, "5".data]).2.get_opt
      (.integer .int) "right".data = .ok (some (.integer .int 0)) ∧
    (sample.2.parse ["add".data, "sub".data, "--left".data, "5".data]).2.get_flag
      "verbose".data = false := by
  refine ⟨?_, ?_, ?_, ?_, ?_, ?_, ?_⟩ <;> decide

/-! ## Option words -/

/-- The long-option branch, for a word `--name` other than `--` and `--help`. -/
theorem App.classify_long (app : App) (name : Str) (next_word : Option Str)
    (h1 : name ≠ []) (h2 : name ≠ "help".data) :
    app.classify ('-' :: '-' :: name) next_word =
      if name ∉ app.m_option_name_set then
        .stop (.error (.unrecognizedOption ('-' :: '-' :: name))) app
      else
        App.dispatch app ('-' :: '-' :: name) next_word
          (app.m_options.find? (fun value => value.m_name = name))
          (app.m_flag_options.find? (fun value => value.m_name = name)) := by
  have h3 : App.starts_with "--".data ('-' :: '-' :: name) = true :=
    (App.starts_with_dash_dash _).mpr ⟨name, rfl⟩
  have h4 : ¬ (('-' :: '-' :: name) = "-h".data ∨ ('-' :: '-' :: name) = "--help".data) := by
    rintro (e | e)
    · simp at e
    · simp only [data_dash_help, List.cons.injEq, true_and] at e
      exact h2 e
  have h5 : ¬ (('-' :: '-' :: name).length = 2) := by
    cases name with
    | nil => exact absurd rfl h1
    | cons c t => simp
  simp only [App.classify, h4, if_false, h3, if_true, h5, List.drop_succ_cons, List.drop_zero]

/-- The short-option branch, for a word `-c...` with `c` other than `-`, the word `-h`
excepted. -/
theorem App.classify_short (app : App) (c : Char) (tail : Str) (next_word : Option Str)
    (hc : c ≠ '-') (hh : ¬ (c = 'h' ∧ tail = [])) :
    app.classify ('-' :: c :: tail) next_word =
      if c ∉ app.m_option_short_name_set then
        .stop (.error (.unrecognizedOption ('-' :: c :: tail))) app
      else
        App.dispatch app ('-' :: c :: tail) next_word
          (app.m_options.find? (fun value => value.m_short_name = some c))
          (app.m_flag_options.find? (fun value => value.m_short_name = some c)) := by
  have h3 : App.starts_with "--".data ('-' :: c :: tail) = false := by
    rw [Bool.eq_false_iff, Ne, App.starts_with_dash_dash]
    rintro ⟨t, e⟩
    simp only [List.cons.injEq, true_and] at e
    exact hc e.1
  have h3b : App.starts_with "-".data ('-' :: c :: tail) = true :=
    (App.starts_with_dash _).mpr ⟨_, rfl⟩
  have h4 : ¬ (('-' :: c :: tail) = "-h".data ∨ ('-' :: c :: tail) = "--help".data) := by
    rintro (e | e)
    · simp only [data_dash_h, List.cons.injEq, true_and] at e
      exact hh e
    · simp only [data_dash_help, List.cons.injEq, true_and] at e
      exact hc e.1
  have h5 : ¬ (('-' :: c :: tail).length = 1) := by simp
  simp only [App.classify, h4, if_false, h3, h3b, if_true, h5, List.getD_cons_succ,
    List.getD_cons_zero, Bool.false_eq_true]

/-- The errors of one round quote the word being classified. -/
theorem App.classify_error {app a : App} {word : Str} {next_word : Option Str} {e : Error}
    (h : app.classify word next_word = .stop (.error e) a) :
    e = .illegalOption word ∨ e = .unrecognizedOption word ∨ e = .requireValue word := by
  simp only [App.classify, App.dispatch, App.bind_value] at h
  repeat' split at h
  all_goals (cases h <;> simp)

theorem SameRegistry.names_eq {a b : App} (h : SameRegistry a b) : b.names = a.names := by
  simp [App.names, h.1, h.2.1]

theorem SameRegistry.shorts_eq {a b : App} (h : SameRegistry a b) : b.shorts = a.shorts := by
  simp [App.shorts, h.1, h.2.1]

/-- The two lookups by name both fail exactly when the name is not stored. -/
theorem App.find_name_none (app : App) (name : Str) :
    (app.m_options.find? (fun value => value.m_name = name) = none ∧
      app.m_flag_options.find? (fun value => value.m_name = name) = none) ↔
    name ∉ app.names := by
  simp only [List.find?_eq_none, decide_eq_true_eq, App.names, List.mem_append, List.mem_map,
    not_or, not_exists, not_and]

/-- The two lookups by short name both fail exactly when the short name is not stored. -/
theorem App.find_short_none (app : App) (c : Char) :
    (app.m_options.find? (fun value => value.m_short_name = some c) = none ∧
      app.m_flag_options.find? (fun value => value.m_short_name = some c) = none) ↔
    c ∉ app.shorts := by
  simp only [List.find?_eq_none, decide_eq_true_eq, App.shorts, List.mem_append,
    List.mem_filterMap, not_or, not_exists, not_and]

/-- The shared tail of the option branches reports an unrecognized option exactly when
both lookups failed. -/
theorem App.dispatch_unrecognized (app : App) (word : Str) (next_word : Option Str)
    (opt : Option OptionValue) (flag_opt : Option FlagValue) :
    App.dispatch app word next_word opt flag_opt
        = .stop (.error (.unrecognizedOption word)) app ↔
      (opt = none ∧ flag_opt = none) := by
  cases opt with
  | none => cases flag_opt <;> simp [App.dispatch]
  | some o =>
    simp only [App.dispatch, App.bind_value, reduceCtorEq, false_and, iff_false]
    intro h
    repeat' split at h
    all_goals cases h

/-- One round at a long-option word reports it unrecognized exactly when its name is not
stored. -/
theorem App.classify_long_unrecognized {app : App} (r : Registered app) (name : Str)
    (next_word : Option Str) (h1 : name ≠ []) (h2 : name ≠ "help".data) :
    app.classify ('-' :: '-' :: name) next_word
        = .stop (.error (.unrecognizedOption ('-' :: '-' :: name))) app ↔
      name ∉ app.names := by
  rw [App.classify_long app name next_word h1 h2]
  by_cases hs : name ∈ app.m_option_name_set
  · simp only [hs, not_true_eq_false, if_false]
    rw [App.dispatch_unrecognized, App.find_name_none]
  · simp only [hs, not_false_eq_true, if_true, true_iff]
    exact fun hm => hs (r.names_mem _ hm)

/-- One round at a short-option word reports it unrecognized exactly when its second
character is not a stored short name. -/
theorem App.classify_short_unrecognized {app : App} (r : Registered app) (c : Char)
    (tail : Str) (next_word : Option Str) (hc : c ≠ '-') (hh : ¬ (c = 'h' ∧ tail = [])) :
    app.classify ('-' :: c :: tail) next_word
        = .stop (.error (.unrecognizedOption ('-' :: c :: tail))) app ↔
      c ∉ app.shorts := by
  rw [App.classify_short app c tail next_word hc hh]
  by_cases hs : c ∈ app.m_option_short_name_set
  · simp only [hs, not_true_eq_false, if_false]
    rw [App.dispatch_unrecognized, App.find_short_none]
  · simp only [hs, not_false_eq_true, if_true, true_iff]
    exact fun hm => hs (r.shorts_mem _ hm)

/-- A parse that ends with an error quoting `word` stopped in a round that classified
`word`, in a state with the same registry. -/
theorem App.parse_error_round (e : Error) : ∀ (n : Nat) (words : List Str) (app : App),
    words.length ≤ n → (app.parse words).1 = .error e →
    ∃ (a : App) (word : Str) (next_word : Option Str), SameRegistry app a ∧
      a.classify word next_word = .stop (.error e) a := by
  intro n
  induction n with
  | zero =>
    intro words app h he
    have : words = [] := List.eq_nil_of_length_eq_zero (by omega)
    subst this
    simp [App.parse_nil] at he
  | succ n ih =>
    intro words app h he
    cases words with
    | nil => simp [App.parse_nil] at he
    | cons word rest =>
      rw [App.parse_cons] at he
      cases hc : app.classify word rest.head? with
      | stop o a =>
        rw [hc] at he
        simp only at he
        subst he
        have := App.classify_stop hc
        subst this
        exact ⟨a, word, _, SameRegistry.refl _, hc⟩
      | next a k =>
        rw [hc] at he
        simp only at he
        obtain ⟨a1, w1, nw1, hs, h1⟩ := ih _ a (by
          simp only [List.length_cons, List.length_drop] at h ⊢
          omega) he
        exact ⟨a1, w1, nw1, (App.classify_next hc).1.trans hs, h1⟩

/-- C7: in every reachable state, the round that classifies a word `--name` (name not
empty, word not `--help`) throws the unrecognized-option error exactly when `name` is not
the name of a stored option or flag, and so does a `parse` whose scan starts at that word;
the round that classifies a word `-c...` (`c` not `-`, word not `-h`) throws it exactly
when `c` is not the short name of a stored option or flag, and so does `parse`. -/
theorem unrecognized_option_iff {app : App} (h : Reachable app) (next_word : Option Str)
    (rest : List Str) :
    (∀ name : Str, name ≠ [] → name ≠ "help".data →
      ((app.classify ('-' :: '-' :: name) next_word
          = .stop (.error (.unrecognizedOption ('-' :: '-' :: name))) app ↔
        name ∉ app.names) ∧
      ((app.parse (('-' :: '-' :: name) :: rest)).1
          = .error (.unrecognizedOption ('-' :: '-' :: name)) ↔
        name ∉ app.names))) ∧
    (∀ (c : Char) (tail : Str), c ≠ '-' → '-' :: c :: tail ≠ "-h".data →
      ((app.classify ('-' :: c :: tail) next_word
          = .stop (.error (.unrecognizedOption ('-' :: c :: tail))) app ↔
        c ∉ app.shorts) ∧
      ((app.parse (('-' :: c :: tail) :: rest)).1
          = .error (.unrecognizedOption ('-' :: c :: tail)) ↔
        c ∉ app.shorts))) := by
  have r := h.is_registered
  -- the parse-level statement follows from the round-level one
  have lift : ∀ (word : Str) (P : Prop),
      (∀ (a : App) (nw : Option Str), SameRegistry app a →
        (a.classify word nw = .stop (.error (.unrecognizedOption word)) a ↔ P)) →
      ((app.parse (word :: rest)).1 = .error (.unrecognizedOption word) ↔ P) := by
    intro word P hP
    constructor
    · intro he
      obtain ⟨a, w1, nw1, hs, h1⟩ := App.parse_error_round _ _ _ app le_rfl he
      have hw : w1 = word := by
        rcases App.classify_error h1 with e | e | e
        · cases e
        · injection e with e1; exact e1.symm
        · cases e
      subst hw
      exact (hP a nw1 hs).mp h1
    · intro hp
      rw [App.parse_cons, (hP app rest.head? (SameRegistry.refl _)).mpr hp]
  refine ⟨?_, ?_⟩
  · intro name h1 h2
    refine ⟨App.classify_long_unrecognized r name next_word h1 h2, ?_⟩
    apply lift
    intro a nw hs
    rw [App.classify_long_unrecognized (r.of_same hs) name nw h1 h2, hs.names_eq]
  · intro c tail hc hh
    have hh2 : ¬ (c = 'h' ∧ tail = []) := by
      rintro ⟨rfl, rfl⟩
      exact hh rfl
    refine ⟨App.classify_short_unrecognized r c tail next_word hc hh2, ?_⟩
    apply lift
    intro a nw hs
    rw [App.classify_short_unrecognized (r.of_same hs) c tail nw hc hh2, hs.shorts_eq]

/-- C7 at the sample program: `--foo` and `-x` are unrecognized, `--left` and `-v` are
not. -/
theorem unrecognized_option_iff_witness :
    (sample.2.parse ["--foo".data, "1".data]).1 = .error (.unrecognizedOption "--foo".data) ∧
    (sample.2.parse ["--left".data, "1".data]).1 ≠ .error (.unrecognizedOption "--left".data) ∧
    (sample.2.parse ["-x".data, "1".data]).1 = .error (.unrecognizedOption "-x".data) ∧
    (sample.2.parse ["-v".data, "1".data]).1 ≠ .error (.unrecognizedOption "-v".data) := by
  have t := unrecognized_option_iff sample_declared.reachable none ["1".data]
  refine ⟨?_, ?_, ?_, ?_⟩
  · exact (t.1 "foo".data (by decide) (by decide)).2.mpr (by decide)
  · exact fun e => (t.1 "left".data (by decide) (by decide)).2.mp e (by decide)
  · exact (t.2 'x' [] (by decide) (by decide)).2.mpr (by decide)
  · exact fun e => (t.2 'v' [] (by decide) (by decide)).2.mp e (by decide)

/-! ## Uniqueness of stored declarations -/

/-- Distinct entries of a list whose present images are pairwise distinct have distinct
images. -/
theorem nodup_filterMap_inj {α β : Type} (f : α → Option β) :
    ∀ l : List α, (l.filterMap f).Nodup → ∀ a ∈ l, ∀ b ∈ l, ∀ c, f a = some c →
      f b = some c → a = b := by
  intro l
  induction l with
  | nil => intro _ a ha; cases ha
  | cons x l ih =>
    intro hn a ha b hb c hfa hfb
    have hrest : (l.filterMap f).Nodup := by
      cases hx : f x with
      | none => simpa [List.filterMap_cons, hx] using hn
      | some d =>
        rw [List.filterMap_cons, hx] at hn
        exact (List.nodup_cons.mp hn).2
    have hnot : ∀ y ∈ l, f x = some c → f y = some c → False := by
      intro y hy hx hfy
      rw [List.filterMap_cons, hx] at hn
      exact (List.nodup_cons.mp hn).1 (List.mem_filterMap.mpr ⟨y, hy, hfy⟩)
    rcases List.mem_cons.mp ha with ea | ha1
    · rcases List.mem_cons.mp hb with eb | hb1
      · rw [ea, eb]
      · subst ea
        exact (hnot b hb1 hfa hfb).elim
    · rcases List.mem_cons.mp hb with eb | hb1
      · subst eb
        exact (hnot a ha1 hfb hfa).elim
      · exact ih hrest a ha1 b hb1 c hfa hfb

theorem Registered.flag_unique {app : App} (r : Registered app) {f1 f2 : FlagValue}
    (h1 : f1 ∈ app.m_flag_options) (h2 : f2 ∈ app.m_flag_options)
    (e : f1.m_name = f2.m_name) : f1 = f2 := by
  have hn := r.names_nodup
  simp only [App.names] at hn
  exact List.inj_on_of_nodup_map (List.nodup_append.mp hn).2.1 h1 h2 e

theorem Registered.option_short_unique {app : App} (r : Registered app) {o1 o2 : OptionValue}
    {c : Char} (h1 : o1 ∈ app.m_options) (h2 : o2 ∈ app.m_options)
    (e1 : o1.m_short_name = some c) (e2 : o2.m_short_name = some c) : o1 = o2 := by
  have hn := r.shorts_nodup
  simp only [App.shorts] at hn
  exact nodup_filterMap_inj _ _ (List.nodup_append.mp hn).1 o1 h1 o2 h2 c e1 e2

theorem Registered.flag_short_unique {app : App} (r : Registered app) {f1 f2 : FlagValue}
    {c : Char} (h1 : f1 ∈ app.m_flag_options) (h2 : f2 ∈ app.m_flag_options)
    (e1 : f1.m_short_name = some c) (e2 : f2.m_short_name = some c) : f1 = f2 := by
  have hn := r.shorts_nodup
  simp only [App.shorts] at hn
  exact nodup_filterMap_inj _ _ (List.nodup_append.mp hn).2.1 f1 h1 f2 h2 c e1 e2

/-- No option shares its name with a flag. -/
theorem Registered.option_flag_name {app : App} (r : Registered app) {o : OptionValue}
    {f : FlagValue} (h1 : o ∈ app.m_options) (h2 : f ∈ app.m_flag_options) :
    o.m_name ≠ f.m_name := by
  have hn := r.names_nodup
  simp only [App.names] at hn
  intro e
  exact (List.nodup_append.mp hn).2.2 (List.mem_map.mpr ⟨o, h1, rfl⟩)
    (List.mem_map.mpr ⟨f, h2, e.symm⟩)

/-- No option shares its short name with a flag. -/
theorem Registered.option_flag_short {app : App} (r : Registered app) {o : OptionValue}
    {f : FlagValue} {c : Char} (h1 : o ∈ app.m_options) (h2 : f ∈ app.m_flag_options)
    (e1 : o.m_short_name = some c) : f.m_short_name ≠ some c := by
  have hn := r.shorts_nodup
  simp only [App.shorts] at hn
  intro e2
  exact (List.nodup_append.mp hn).2.2 (List.mem_filterMap.mpr ⟨o, h1, e1⟩)
    (List.mem_filterMap.mpr ⟨f, h2, e2⟩)

/-- A stored option is not called `help`. -/
theorem Registered.option_not_help {app : App} (r : Registered app) {o : OptionValue}
    (h1 : o ∈ app.m_options) : o.m_name ≠ "help".data := by
  obtain ⟨f, hf, e⟩ := List.mem_map.mp r.help_name
  exact fun e2 => r.option_flag_name h1 hf (e2.trans e.symm)

/-- A stored option does not have the short name `h`. -/
theorem Registered.option_not_h {app : App} (r : Registered app) {o : OptionValue}
    (h1 : o ∈ app.m_options) : o.m_short_name ≠ some 'h' := by
  obtain ⟨f, hf, e⟩ := List.mem_filterMap.mp r.help_short
  exact fun e2 => r.option_flag_short h1 hf e2 e

/-- The lookup by name finds a stored option. -/
theorem Registered.find_option {app : App} (r : Registered app) {o : OptionValue}
    (h1 : o ∈ app.m_options) :
    app.m_options.find? (fun value => value.m_name = o.m_name) = some o := by
  cases hf : app.m_options.find? (fun value => value.m_name = o.m_name) with
  | none =>
    rw [List.find?_eq_none] at hf
    exact absurd (by simp) (hf o h1)
  | some x =>
    have hx := List.find?_some hf
    have hm := List.mem_of_find?_eq_some hf
    simp only [decide_eq_true_eq] at hx
    rw [r.option_unique hm h1 hx]

/-- The lookup by short name finds a stored option. -/
theorem Registered.find_option_short {app : App} (r : Registered app) {o : OptionValue}
    {c : Char} (h1 : o ∈ app.m_options) (e : o.m_short_name = some c) :
    app.m_options.find? (fun value => value.m_short_name = some c) = some o := by
  cases hf : app.m_options.find? (fun value => value.m_short_name = some c) with
  | none =>
    rw [List.find?_eq_none] at hf
    exact absurd (by simp [e]) (hf o h1)
  | some x =>
    have hx := List.find?_some hf
    have hm := List.mem_of_find?_eq_some hf
    simp only [decide_eq_true_eq] at hx
    rw [r.option_short_unique hm h1 hx e]

/-- One round at the long form of a stored option binds the next word. -/
theorem App.classify_option_long {app : App} (r : Registered app) {o : OptionValue}
    (h1 : o ∈ app.m_options) (next_word : Option Str) :
    app.classify ('-' :: '-' :: o.m_name) next_word
      = App.bind_value app ('-' :: '-' :: o.m_name) next_word o := by
  have hne : o.m_name ≠ [] :=
    r.names_ne _ (List.mem_append_left _ (List.mem_map.mpr ⟨o, h1, rfl⟩))
  have hset : o.m_name ∈ app.m_option_name_set :=
    r.names_mem _ (List.mem_append_left _ (List.mem_map.mpr ⟨o, h1, rfl⟩))
  rw [App.classify_long app _ next_word hne (r.option_not_help h1)]
  simp only [hset, not_true_eq_false, if_false, r.find_option h1, App.dispatch]

/-- One round at a short form of a stored option binds the next word. -/
theorem App.classify_option_short {app : App} (r : Registered app) {o : OptionValue}
    {c : Char} (h1 : o ∈ app.m_options) (e : o.m_short_name = some c) (hc : c ≠ '-')
    (tail : Str) (next_word : Option Str) :
    app.classify ('-' :: c :: tail) next_word
      = App.bind_value app ('-' :: c :: tail) next_word o := by
  have hset : c ∈ app.m_option_short_name_set :=
    r.shorts_mem _ (List.mem_append_left _ (List.mem_filterMap.mpr ⟨o, h1, e⟩))
  have hh : ¬ (c = 'h' ∧ tail = []) := by
    rintro ⟨rfl, _⟩
    exact r.option_not_h h1 e
  rw [App.classify_short app c tail next_word hc hh]
  simp only [hset, not_true_eq_false, if_false, r.find_option_short h1 e, App.dispatch]

/-! ## Binding a value to an option -/

/-- C6, as the code has it: in every reachable state, when the scan classifies the long
form `--name` of a stored value-option, or its short form `-c` with `c` other than `-`,
and that word is the last one or the next word starts with `-`, the round (and `parse`)
throws the missing-value error and leaves the object as it was; otherwise the next word
is recorded with the declaration as a parsed option and the scan goes on behind it. -/
theorem option_value_binding {app : App} (h : Reachable app) {opt : OptionValue}
    (hopt : opt ∈ app.m_options) (word : Str)
    (hword : word = '-' :: '-' :: opt.m_name ∨
      ∃ c, opt.m_short_name = some c ∧ c ≠ '-' ∧ word = ['-', c])
    (rest : List Str) :
    (app.classify word none = .stop (.error (.requireValue word)) app ∧
      app.parse [word] = (.error (.requireValue word), app)) ∧
    (∀ next_word : Str, App.starts_with "-".data next_word = true →
      app.classify word (some next_word) = .stop (.error (.requireValue word)) app ∧
      app.parse (word :: next_word :: rest) = (.error (.requireValue word), app)) ∧
    (∀ next_word : Str, App.starts_with "-".data next_word = false →
      app.classify word (some next_word) =
        .next { app with m_parsed_options := app.m_parsed_options ++ [(next_word, opt)] } 2 ∧
      app.parse (word :: next_word :: rest) =
        App.parse { app with m_parsed_options := app.m_parsed_options ++ [(next_word, opt)] }
          rest) := by
  have r := h.is_registered
  have hb : ∀ nw : Option Str, app.classify word nw = App.bind_value app word nw opt := by
    intro nw
    rcases hword with e | ⟨c, e1, e2, e3⟩
    · rw [e]; exact App.classify_option_long r hopt nw
    · rw [e3]; exact App.classify_option_short r hopt e1 e2 [] nw
  refine ⟨⟨?_, ?_⟩, ?_, ?_⟩
  · rw [hb]; rfl
  · rw [App.parse_cons, List.head?_nil, hb]; rfl
  · intro nw hnw
    have e : app.classify word (some nw) = .stop (.error (.requireValue word)) app := by
      rw [hb]; simp [App.bind_value, hnw]
    exact ⟨e, by rw [App.parse_cons, List.head?_cons, e]⟩
  · intro nw hnw
    have e : app.classify word (some nw) =
        .next { app with m_parsed_options := app.m_parsed_options ++ [(nw, opt)] } 2 := by
      rw [hb]; simp [App.bind_value, hnw]
    exact ⟨e, by rw [App.parse_cons, List.head?_cons, e]; rfl⟩

/-- C6 at the sample program: `--left` as the last word and `-l -v` both miss their value,
`--left 5` records `5`. -/
theorem option_value_binding_witness :
    sample.2.parse ["--left".data] = (.error (.requireValue "--left".data), sample.2) ∧
    sample.2.parse ["-l".data, "-v".data] = (.error (.requireValue "-l".data), sample.2) ∧
    (sample.2.parse ["--left".data, "5".data]).2.m_parsed_options.map Prod.fst
      = ["5".data] := by
  have t1 := option_value_binding sample_declared.reachable
    (show (⟨"left".data, some 'l', some "Left number".data, some (.integer .int 20)⟩ :
      OptionValue) ∈ sample.2.m_options by decide)
    "--left".data (Or.inl (by decide)) []
  have t2 := option_value_binding sample_declared.reachable
    (show (⟨"left".data, some 'l', some "Left number".data, some (.integer .int 20)⟩ :
      OptionValue) ∈ sample.2.m_options by decide)
    "-l".data (Or.inr ⟨'l', by decide, by decide, by decide⟩) []
  refine ⟨t1.1.2, (t2.2.1 "-v".data (by decide)).2, ?_⟩
  rw [(t1.2.2 "5".data (by decide)).2]
  decide

/-- C6 as stated fails for a short name `-`: the option `foo` with the short name `-` is
declared without complaint, its short form `--` is then taken for a bare long option and
rejected as illegal, with or without a value behind it. -/
theorem option_value_binding_counterexample :
    Declared ((App.new none none).2.add_opt "foo".data (some '-') none none).2 ∧
    (⟨"foo".data, some '-', none, none⟩ : OptionValue) ∈
      ((App.new none none).2.add_opt "foo".data (some '-') none none).2.m_options ∧
    (((App.new none none).2.add_opt "foo".data (some '-') none none).2.parse
      [['-', '-']]).1 = .error (.illegalOption ['-', '-']) ∧
    (((App.new none none).2.add_opt "foo".data (some '-') none none).2.parse
      [['-', '-']]).1 ≠ .error (.requireValue ['-', '-']) ∧
    (((App.new none none).2.add_opt "foo".data (some '-') none none).2.parse
      [['-', '-'], "v".data]).1 = .error (.illegalOption ['-', '-']) ∧
    (((App.new none none).2.add_opt "foo".data (some '-') none none).2.parse
      [['-', '-'], "v".data]).2.m_parsed_options = [] := by
  refine ⟨Declared.add_opt _ _ _ _ (Declared.new none none) (by decide), ?_, ?_, ?_, ?_, ?_⟩
    <;> decide

/-! ## Long and short spelling of an option -/

/-- A round does not tell apart two next words that both start with `-`. -/
theorem App.classify_next_dash (app : App) (word x y : Str)
    (hx : App.starts_with "-".data x = true) (hy : App.starts_with "-".data y = true) :
    app.classify word (some x) = app.classify word (some y) := by
  have hb : ∀ o : OptionValue,
      App.bind_value app word (some x) o = App.bind_value app word (some y) o := by
    intro o
    simp [App.bind_value, hx, hy]
  have hd : ∀ (o : Option OptionValue) (f : Option FlagValue),
      App.dispatch app word (some x) o f = App.dispatch app word (some y) o f := by
    intro o f
    cases o with
    | none => cases f <;> rfl
    | some o => exact hb o
  simp only [App.classify, hd]

theorem SameUpToSpelling.rfl (long short : Str) (r : Outcome × App) :
    SameUpToSpelling long short r r := ⟨Eq.refl _, Or.inl (Eq.refl _)⟩

/-- The induction behind C3, over the words in front of the option. -/
theorem App.parse_long_short (opt : OptionValue) (c : Char) (hc : opt.m_short_name = some c)
    (hne : c ≠ '-') (v : Str) (post : List Str) :
    ∀ (n : Nat) (pre : List Str) (app : App), pre.length ≤ n → Registered app →
      opt ∈ app.m_options →
      SameUpToSpelling ('-' :: '-' :: opt.m_name) ['-', c]
        (app.parse (pre ++ ('-' :: '-' :: opt.m_name) :: v :: post))
        (app.parse (pre ++ ['-', c] :: v :: post)) := by
  have base : ∀ app : App, Registered app → opt ∈ app.m_options →
      SameUpToSpelling ('-' :: '-' :: opt.m_name) ['-', c]
        (app.parse (('-' :: '-' :: opt.m_name) :: v :: post))
        (app.parse (['-', c] :: v :: post)) := by
    intro app r ho
    rw [App.parse_cons, App.parse_cons, List.head?_cons, App.classify_option_long r ho,
      App.classify_option_short r ho hc hne]
    by_cases hv : App.starts_with "-".data v = true
    · simp only [App.bind_value, hv, if_true]
      exact ⟨rfl, Or.inr ⟨rfl, rfl⟩⟩
    · simp only [App.bind_value, hv, if_false, Bool.false_eq_true]
      exact SameUpToSpelling.rfl _ _ _
  intro n
  induction n with
  | zero =>
    intro pre app hl r ho
    have : pre = [] := List.eq_nil_of_length_eq_zero (by omega)
    subst this
    exact base app r ho
  | succ n ih =>
    intro pre app hl r ho
    cases pre with
    | nil => exact base app r ho
    | cons w pre1 =>
      simp only [List.cons_append]
      rw [App.parse_cons, App.parse_cons]
      cases pre1 with
      | nil =>
        simp only [List.nil_append, List.head?_cons]
        rw [App.classify_next_dash app w ('-' :: '-' :: opt.m_name) ['-', c]
          ((App.starts_with_dash _).mpr ⟨_, rfl⟩) ((App.starts_with_dash _).mpr ⟨_, rfl⟩)]
        cases hcl : app.classify w (some ['-', c]) with
        | stop o a => exact SameUpToSpelling.rfl _ _ _
        | next a k =>
          simp only
          have hk := App.classify_next hcl
          rcases hk.2 with e | e
          · subst e
            simp only [Nat.sub_self, List.drop_zero]
            exact base a (r.of_same hk.1) (hk.1.1 ▸ ho)
          · subst e
            exact SameUpToSpelling.rfl _ _ _
      | cons p pre2 =>
        simp only [List.cons_append, List.head?_cons]
        cases hcl : app.classify w (some p) with
        | stop o a => exact SameUpToSpelling.rfl _ _ _
        | next a k =>
          simp only
          have hk := App.classify_next hcl
          simp only [List.length_cons] at hl
          rcases hk.2 with e | e
          · subst e
            simp only [Nat.sub_self, List.drop_zero]
            have := ih (p :: pre2) a (by simp only [List.length_cons]; omega)
              (r.of_same hk.1) (hk.1.1 ▸ ho)
            simpa only [List.cons_append] using this
          · subst e
            simp only [Nat.add_one_sub_one, List.drop_succ_cons, List.drop_zero]
            exact ih pre2 a (by omega) (r.of_same hk.1) (hk.1.1 ▸ ho)

/-- C3, as the code has it: in an `App` built by successful declarations, for a stored
value-option with name `name` and a short name `c` other than `-`, `parse` of
`pre ++ [--name, v] ++ post` and of `pre ++ [-c, v] ++ post` from the same state leave the
same object (the same parsed arguments, parsed options and parsed flags) and end the same
way: both return, both show the help, or both throw an error of the same category, the
message of a missing-value error quoting the spelling that was met. -/
theorem long_short_equivalent {app : App} (h : Declared app) {opt : OptionValue}
    (hopt : opt ∈ app.m_options) {c : Char} (hc : opt.m_short_name = some c) (hne : c ≠ '-')
    (v : Str) (pre post : List Str) :
    (app.parse (pre ++ ['-' :: '-' :: opt.m_name, v] ++ post)).2
      = (app.parse (pre ++ [['-', c], v] ++ post)).2 ∧
    (app.parse (pre ++ ['-' :: '-' :: opt.m_name, v] ++ post)).1.kind
      = (app.parse (pre ++ [['-', c], v] ++ post)).1.kind ∧
    ((app.parse (pre ++ ['-' :: '-' :: opt.m_name, v] ++ post)).1
        = (app.parse (pre ++ [['-', c], v] ++ post)).1 ∨
      ((app.parse (pre ++ ['-' :: '-' :: opt.m_name, v] ++ post)).1
          = .error (.requireValue ('-' :: '-' :: opt.m_name)) ∧
        (app.parse (pre ++ [['-', c], v] ++ post)).1 = .error (.requireValue ['-', c]))) := by
  have t := App.parse_long_short opt c hc hne v post pre.length pre app le_rfl
    h.to_registered hopt
  simp only [List.append_assoc, List.cons_append, List.nil_append]
  refine ⟨t.1, ?_, t.2⟩
  rcases t.2 with e | ⟨e1, e2⟩
  · rw [e]
  · rw [e1, e2]; rfl

/-- C3 at the sample program: `add --left 5 sub` and `add -l 5 sub` give the same result. -/
theorem long_short_equivalent_witness :
    (sample.2.parse ["add".data, "--left".data, "5".data, "sub".data]).2
      = (sample.2.parse ["add".data, "-l".data, "5".data, "sub".data]).2 ∧
    (sample.2.parse ["add".data, "--left".data, "5".data, "sub".data]).1.kind
      = (sample.2.parse ["add".data, "-l".data, "5".data, "sub".data]).1.kind := by
  have t := long_short_equivalent sample_declared
    (show (⟨"left".data, some 'l', some "Left number".data, some (.integer .int 20)⟩ :
      OptionValue) ∈ sample.2.m_options by decide)
    (show _ = some 'l' from rfl) (by decide) "5".data ["add".data] ["sub".data]
  exact ⟨t.1, t.2.1⟩

/-- C3 as stated fails for a short name `-`: with the option `foo` declared with the short
name `-`, `parse(--foo v)` returns normally and records `v`, while the short spelling `--`
is rejected as an illegal option and records nothing. -/
theorem long_short_equivalent_counterexample :
    Declared ((App.new none none).2.add_opt "foo".data (some '-') none none).2 ∧
    (⟨"foo".data, some '-', none, none⟩ : OptionValue) ∈
      ((App.new none none).2.add_opt "foo".data (some '-') none none).2.m_options ∧
    (((App.new none none).2.add_opt "foo".data (some '-') none none).2.parse
      ([] ++ ["--foo".data, "v".data] ++ [])).1 = .ok ∧
    (((App.new none none).2.add_opt "foo".data (some '-') none none).2.parse
      ([] ++ [['-', '-'], "v".data] ++ [])).1 = .error (.illegalOption ['-', '-']) ∧
    (((App.new none none).2.add_opt "foo".data (some '-') none none).2.parse
      ([] ++ ["--foo".data, "v".data] ++ [])).2.m_parsed_options ≠
    (((App.new none none).2.add_opt "foo".data (some '-') none none).2.parse
      ([] ++ [['-', '-'], "v".data] ++ [])).2.m_parsed_options := by
  refine ⟨Declared.add_opt _ _ _ _ (Declared.new none none) (by decide), ?_, ?_, ?_, ?_⟩
    <;> decide

/-! ## What one round records -/

/-- The shapes a word can have. -/
theorem word_shape (w : Str) :
    App.starts_with "-".data w = false ∨ w = ['-'] ∨ w = ['-', '-'] ∨
    (∃ nm, nm ≠ [] ∧ w = '-' :: '-' :: nm) ∨ (∃ c tail, c ≠ '-' ∧ w = '-' :: c :: tail) := by
  by_cases h : App.starts_with "-".data w = true
  · obtain ⟨t, rfl⟩ := (App.starts_with_dash w).mp h
    cases t with
    | nil => exact Or.inr (Or.inl rfl)
    | cons c tail =>
      by_cases hc : c = '-'
      · subst hc
        cases tail with
        | nil => exact Or.inr (Or.inr (Or.inl rfl))
        | cons d u => exact Or.inr (Or.inr (Or.inr (Or.inl ⟨d :: u, by simp, rfl⟩)))
      · exact Or.inr (Or.inr (Or.inr (Or.inr ⟨c, tail, hc, rfl⟩)))
  · exact Or.inl (by simpa using h)

theorem App.classify_bare_dash (app : App) (next_word : Option Str) :
    app.classify ['-'] next_word = .stop (.error (.illegalOption ['-'])) app := rfl

theorem App.classify_bare_dash_dash (app : App) (next_word : Option Str) :
    app.classify ['-', '-'] next_word = .stop (.error (.illegalOption ['-', '-'])) app := rfl

theorem App.classify_help_long (app : App) (next_word : Option Str) :
    app.classify "--help".data next_word = .stop .help app := rfl

theorem App.classify_help_short (app : App) (next_word : Option Str) :
    app.classify "-h".data next_word = .stop .help app := rfl

/-- What the shared tail of the option branches records when the round goes on. -/
theorem App.dispatch_next {app a : App} {word : Str} {next_word : Option Str}
    {opt : Option OptionValue} {flag_opt : Option FlagValue} {k : Nat}
    (h : App.dispatch app word next_word opt flag_opt = .next a k) :
    (k = 1 ∧ opt = none ∧ ∃ f, flag_opt = some f ∧
      a = { app with m_parsed_flag_options := app.m_parsed_flag_options ++ [f] }) ∨
    (k = 2 ∧ ∃ x o, next_word = some x ∧ App.starts_with "-".data x = false ∧ opt = some o ∧
      a = { app with m_parsed_options := app.m_parsed_options ++ [(x, o)] }) := by
  cases opt with
  | none =>
    cases flag_opt with
    | none => simp [App.dispatch] at h
    | some f =>
      simp only [App.dispatch, Step.next.injEq] at h
      exact Or.inl ⟨h.2.symm, rfl, f, rfl, h.1.symm⟩
  | some o =>
    cases next_word with
    | none => simp [App.dispatch, App.bind_value] at h
    | some x =>
      by_cases hx : App.starts_with "-".data x = true
      · simp [App.dispatch, App.bind_value, hx] at h
      · simp only [App.dispatch, App.bind_value, hx, if_false, Bool.false_eq_true,
          Step.next.injEq] at h
        exact Or.inr ⟨h.2.symm, x, o, rfl, by simpa using hx, rfl, h.1.symm⟩

/-- Everything a round that goes on can have done: a plain word joins the parsed
arguments; an option word records the flag found by its name or short name; or it records
the next word, which does not start with `-`, with the value-option found. -/
theorem App.classify_next_cases {app a : App} {w : Str} {next_word : Option Str} {k : Nat}
    (h : app.classify w next_word = .next a k) :
    (App.starts_with "-".data w = false ∧ k = 1 ∧
      a = { app with m_parsed_arguments := app.m_parsed_arguments ++ [w] }) ∨
    (k = 1 ∧ ∃ f ∈ app.m_flag_options,
      a = { app with m_parsed_flag_options := app.m_parsed_flag_options ++ [f] } ∧
      ((∃ nm, w = '-' :: '-' :: nm ∧ f.m_name = nm ∧ ∀ o ∈ app.m_options, o.m_name ≠ nm) ∨
        (∃ c tail, c ≠ '-' ∧ w = '-' :: c :: tail ∧ f.m_short_name = some c ∧
          ∀ o ∈ app.m_options, o.m_short_name ≠ some c))) ∨
    (k = 2 ∧ ∃ x, ∃ o ∈ app.m_options, next_word = some x ∧
      App.starts_with "-".data x = false ∧
      a = { app with m_parsed_options := app.m_parsed_options ++ [(x, o)] } ∧
      ((∃ nm, w = '-' :: '-' :: nm ∧ o.m_name = nm) ∨
        (∃ c tail, c ≠ '-' ∧ w = '-' :: c :: tail ∧ o.m_short_name = some c))) := by
  rcases word_shape w with hp | rfl | rfl | ⟨nm, hnm, rfl⟩ | ⟨c, tail, hc, rfl⟩
  · rw [App.classify_positional app w next_word hp] at h
    simp only [Step.next.injEq] at h
    exact Or.inl ⟨hp, h.2.symm, h.1.symm⟩
  · rw [App.classify_bare_dash] at h; cases h
  · rw [App.classify_bare_dash_dash] at h; cases h
  · by_cases hh : nm = "help".data
    · subst hh
      rw [show ('-' :: '-' :: "help".data) = "--help".data from rfl,
        App.classify_help_long] at h
      cases h
    · rw [App.classify_long app nm next_word hnm hh] at h
      split at h
      · cases h
      · rcases App.dispatch_next h with ⟨hk, ho, f, hf, ha⟩ | ⟨hk, x, o, hn, hx, ho, ha⟩
        · refine Or.inr (Or.inl ⟨hk, f, List.mem_of_find?_eq_some hf, ha, Or.inl ⟨nm, rfl, ?_, ?_⟩⟩)
          · simpa using List.find?_some hf
          · intro o hom
            rw [List.find?_eq_none] at ho
            simpa using ho o hom
        · refine Or.inr (Or.inr ⟨hk, x, o, List.mem_of_find?_eq_some ho, hn, hx, ha,
            Or.inl ⟨nm, rfl, ?_⟩⟩)
          simpa using List.find?_some ho
  · by_cases hh : c = 'h' ∧ tail = []
    · obtain ⟨rfl, rfl⟩ := hh
      rw [show ['-', 'h'] = "-h".data from rfl, App.classify_help_short] at h
      cases h
    · rw [App.classify_short app c tail next_word hc hh] at h
      split at h
      · cases h
      · rcases App.dispatch_next h with ⟨hk, ho, f, hf, ha⟩ | ⟨hk, x, o, hn, hx, ho, ha⟩
        · refine Or.inr (Or.inl ⟨hk, f, List.mem_of_find?_eq_some hf, ha,
            Or.inr ⟨c, tail, hc, rfl, ?_, ?_⟩⟩)
          · simpa using List.find?_some hf
          · intro o hom
            rw [List.find?_eq_none] at ho
            simpa using ho o hom
        · refine Or.inr (Or.inr ⟨hk, x, o, List.mem_of_find?_eq_some ho, hn, hx, ha,
            Or.inr ⟨c, tail, hc, rfl, ?_⟩⟩)
          simpa using List.find?_some ho

/-- A round never leaves `parse` with a normal return. -/
theorem App.classify_stop_ne_ok {app a : App} {w : Str} {next_word : Option Str}
    (h : app.classify w next_word = .stop .ok a) : False := by
  simp only [App.classify, App.dispatch, App.bind_value] at h
  repeat' split at h
  all_goals cases h

/-! ## Flags -/

theorem App.get_flag_iff (app : App) (name : Str) :
    app.get_flag name = true ↔ ∃ f ∈ app.m_parsed_flag_options, f.m_name = name := by
  simp [App.get_flag, List.find?_isSome]

theorem FlagToken.starts_with {flag : FlagValue} {w : Str} (h : FlagToken flag w) :
    App.starts_with "-".data w = true := by
  rcases h with e | ⟨c, tail, _, e, _⟩
  · exact (App.starts_with_dash w).mpr ⟨_, e⟩
  · exact (App.starts_with_dash w).mpr ⟨_, e⟩

/-- One round records the flag exactly when its word asks for it. -/
theorem App.classify_flag {app a : App} (r : Registered app) {flag : FlagValue}
    (hf : flag ∈ app.m_flag_options) {w : Str} {next_word : Option Str} {k : Nat}
    (h : app.classify w next_word = .next a k) :
    ((∃ f ∈ a.m_parsed_flag_options, f.m_name = flag.m_name) ↔
      ((∃ f ∈ app.m_parsed_flag_options, f.m_name = flag.m_name) ∨ FlagToken flag w)) ∧
    (k = 2 → ∃ x, next_word = some x ∧ App.starts_with "-".data x = false) := by
  rcases App.classify_next_cases h with ⟨hp, hk, ha⟩ | ⟨hk, f, hfm, ha, hw⟩ |
    ⟨hk, x, o, hom, hn, hx, ha, hw⟩
  · subst ha
    refine ⟨⟨fun h1 => Or.inl h1, ?_⟩, fun h2 => by omega⟩
    rintro (h1 | h1)
    · exact h1
    · rw [h1.starts_with] at hp; cases hp
  · subst ha
    refine ⟨?_, fun h2 => by omega⟩
    have key : f.m_name = flag.m_name ↔ FlagToken flag w := by
      rcases hw with ⟨nm, rfl, hnm, hno⟩ | ⟨c, tail, hc, rfl, hs, hno⟩
      · constructor
        · intro e
          exact Or.inl (by rw [← e, hnm])
        · rintro (e | ⟨c, tail, _, e, hdd⟩)
          · simp only [List.cons.injEq, true_and] at e
            rw [hnm, e]
          · rw [(App.starts_with_dash_dash _).mpr ⟨nm, rfl⟩] at hdd
            cases hdd
      · constructor
        · intro e
          have := r.flag_unique hfm hf e
          subst this
          refine Or.inr ⟨c, tail, hs, rfl, ?_⟩
          rw [Bool.eq_false_iff, Ne, App.starts_with_dash_dash]
          rintro ⟨t, e2⟩
          simp only [List.cons.injEq, true_and] at e2
          exact hc e2.1
        · rintro (e | ⟨c1, tail1, hs1, e, _⟩)
          · simp only [List.cons.injEq, true_and] at e
            exact absurd e.1 hc
          · simp only [List.cons.injEq, true_and] at e
            obtain ⟨rfl, _⟩ := e
            rw [r.flag_short_unique hfm hf hs hs1]
    constructor
    · rintro ⟨g, hg, e⟩
      rcases List.mem_append.mp hg with hg | hg
      · exact Or.inl ⟨g, hg, e⟩
      · rw [List.mem_singleton] at hg
        subst hg
        exact Or.inr (key.mp e)
    · rintro (⟨g, hg, e⟩ | ht)
      · exact ⟨g, List.mem_append_left _ hg, e⟩
      · exact ⟨f, List.mem_append_right _ (List.mem_singleton.mpr rfl), key.mpr ht⟩
  · subst ha
    refine ⟨⟨fun h1 => Or.inl h1, ?_⟩, fun _ => ⟨x, hn, hx⟩⟩
    rintro (h1 | h1)
    · exact h1
    · exfalso
      rcases hw with ⟨nm, rfl, hnm⟩ | ⟨c, tail, hc, rfl, hs⟩
      · rcases h1 with e | ⟨c, tail, _, e, hdd⟩
        · simp only [List.cons.injEq, true_and] at e
          exact r.option_flag_name hom hf (hnm.trans e)
        · rw [(App.starts_with_dash_dash _).mpr ⟨nm, rfl⟩] at hdd
          cases hdd
      · rcases h1 with e | ⟨c1, tail1, hs1, e, _⟩
        · simp only [List.cons.injEq, true_and] at e
          exact hc e.1
        · simp only [List.cons.injEq, true_and] at e
          obtain ⟨rfl, _⟩ := e
          exact r.option_flag_short hom hf hs hs1

/-- A parse that returns normally has recorded the flag exactly when it was recorded
before or one of the words asks for it. -/
theorem App.parse_flag (flag : FlagValue) : ∀ (n : Nat) (words : List Str) (app : App),
    words.length ≤ n → Registered app → flag ∈ app.m_flag_options →
    (app.parse words).1 = .ok →
    ((∃ f ∈ (app.parse words).2.m_parsed_flag_options, f.m_name = flag.m_name) ↔
      ((∃ f ∈ app.m_parsed_flag_options, f.m_name = flag.m_name) ∨
        ∃ w ∈ words, FlagToken flag w)) := by
  intro n
  induction n with
  | zero =>
    intro words app hl r hf hok
    have : words = [] := List.eq_nil_of_length_eq_zero (by omega)
    subst this
    simp [App.parse_nil]
  | succ n ih =>
    intro words app hl r hf hok
    cases words with
    | nil => simp [App.parse_nil]
    | cons w rest =>
      rw [App.parse_cons] at hok ⊢
      cases hc : app.classify w rest.head? with
      | stop o a =>
        rw [hc] at hok
        simp only at hok
        subst hok
        exact (App.classify_stop_ne_ok hc).elim
      | next a k =>
        rw [hc] at hok
        simp only at hok ⊢
        have hs := (App.classify_next hc).1
        obtain ⟨h1, h2⟩ := App.classify_flag r hf hc
        simp only [List.length_cons] at hl
        rcases (App.classify_next hc).2 with e | e
        · subst e
          simp only [Nat.sub_self, List.drop_zero] at hok ⊢
          rw [ih rest a (by omega) (r.of_same hs) (hs.2.1 ▸ hf) hok, h1]
          simp only [List.mem_cons, exists_eq_or_imp, or_assoc]
        · subst e
          obtain ⟨x, hx, hxd⟩ := h2 rfl
          cases rest with
          | nil => simp at hx
          | cons y rest1 =>
            simp only [List.head?_cons, Option.some.injEq] at hx
            subst hx
            simp only [Nat.add_one_sub_one, List.drop_succ_cons, List.drop_zero] at hok ⊢
            simp only [List.length_cons] at hl
            rw [ih rest1 a (by omega) (r.of_same hs) (hs.2.1 ▸ hf) hok, h1]
            have hny : ¬ FlagToken flag y := by
              intro ht
              rw [ht.starts_with] at hxd
              cases hxd
            simp only [List.mem_cons, exists_eq_or_imp, or_assoc, hny, false_or]

/-- C5: `get_flag` is a total test for a parsed-flag entry of the given name. For a flag
stored in an `App` built by successful declarations, `get_flag` of its name is false
before any parse; after a `parse` that returns normally it is true exactly when one of
the words is `--name`, or starts with `-`, has the flag's short name as second character
and does not start with `--`. -/
theorem get_flag_iff_token {app : App} (h : Declared app) {flag : FlagValue}
    (hflag : flag ∈ app.m_flag_options) (words : List Str)
    (hok : (app.parse words).1 = .ok) :
    (∀ (a : App) (name : Str),
      a.get_flag name = true ↔ ∃ f ∈ a.m_parsed_flag_options, f.m_name = name) ∧
    app.get_flag flag.m_name = false ∧
    ((app.parse words).2.get_flag flag.m_name = true ↔ ∃ w ∈ words, FlagToken flag w) := by
  have hnone : app.m_parsed_flag_options = [] := h.exact.no_flags
  refine ⟨App.get_flag_iff, ?_, ?_⟩
  · simp [App.get_flag, hnone]
  · rw [App.get_flag_iff,
      App.parse_flag flag words.length words app le_rfl h.to_registered hflag hok]
    simp [hnone]

/-- C5 at the sample program: `-v` sets the flag `verbose`, and it was not set before. -/
theorem get_flag_iff_token_witness :
    sample.2.get_flag "verbose".data = false ∧
    (sample.2.parse ["add".data, "-v".data]).2.get_flag "verbose".data = true := by
  have t := get_flag_iff_token sample_declared
    (show (⟨"verbose".data, some 'v', some "Verbose mode".data⟩ : FlagValue)
      ∈ sample.2.m_flag_options by decide)
    ["add".data, "-v".data] (by decide)
  refine ⟨t.2.1, t.2.2.mpr ⟨"-v".data, by decide, Or.inr ⟨'v', [], rfl, rfl, by decide⟩⟩⟩

/-! ## Text of a value and `cast` -/

theorem digitChar_isdigit (k : Nat) (h : k < 10) : isdigit (Nat.digitChar k) = true := by
  interval_cases k <;> decide

theorem digitChar_value (k : Nat) (h : k < 10) : (Nat.digitChar k).toNat - 48 = k := by
  interval_cases k <;> rfl

theorem digitsValue_append (xs : Str) (d : Char) :
    digitsValue (xs ++ [d]) = 10 * digitsValue xs + (d.toNat - 48) := by
  simp [digitsValue, List.foldl_append]

/-- The decimal digits the library writes for a number: at least one, all of them digits,
and they denote the number. -/
theorem toDigitsCore_spec : ∀ (fuel m : Nat) (ds : List Char), m < fuel →
    ∃ xs, Nat.toDigitsCore 10 fuel m ds = xs ++ ds ∧ xs ≠ [] ∧
      (∀ c ∈ xs, isdigit c = true) ∧ digitsValue xs = m := by
  intro fuel
  induction fuel with
  | zero => intro m ds h; omega
  | succ fuel ih =>
    intro m ds h
    by_cases h0 : m / 10 = 0
    · refine ⟨[Nat.digitChar (m % 10)], ?_, by simp, ?_, ?_⟩
      · simp [Nat.toDigitsCore, h0]
      · intro c hc
        rw [List.mem_singleton] at hc
        subst hc
        exact digitChar_isdigit _ (Nat.mod_lt _ (by norm_num))
      · have : digitsValue [Nat.digitChar (m % 10)] = (Nat.digitChar (m % 10)).toNat - 48 := by
          simp [digitsValue]
        rw [this, digitChar_value _ (Nat.mod_lt _ (by norm_num))]
        omega
    · obtain ⟨xs, e, hne, hd, hv⟩ := ih (m / 10) (Nat.digitChar (m % 10) :: ds) (by omega)
      refine ⟨xs ++ [Nat.digitChar (m % 10)], ?_, by simp, ?_, ?_⟩
      · simp [Nat.toDigitsCore, h0, e]
      · intro c hc
        rcases List.mem_append.mp hc with hc | hc
        · exact hd c hc
        · rw [List.mem_singleton] at hc
          subst hc
          exact digitChar_isdigit _ (Nat.mod_lt _ (by norm_num))
      · rw [digitsValue_append, hv, digitChar_value _ (Nat.mod_lt _ (by norm_num))]
        omega

theorem toDigits_spec (m : Nat) :
    Nat.toDigits 10 m ≠ [] ∧ (∀ c ∈ Nat.toDigits 10 m, isdigit c = true) ∧
      digitsValue (Nat.toDigits 10 m) = m := by
  obtain ⟨xs, e, hne, hd, hv⟩ := toDigitsCore_spec (m + 1) m [] (by omega)
  rw [List.append_nil] at e
  rw [Nat.toDigits, e]
  exact ⟨hne, hd, hv⟩

theorem isdigit_not_space {c : Char} (h : isdigit c = true) :
    isspace c = false ∧ c ≠ '-' ∧ c ≠ '+' := by
  simp only [isdigit, Bool.and_eq_true, decide_eq_true_eq] at h
  refine ⟨?_, ?_, ?_⟩
  · simp only [isspace, Bool.or_eq_false_iff, decide_eq_false_iff_not]
    refine ⟨⟨⟨⟨⟨?_, ?_⟩, ?_⟩, ?_⟩, ?_⟩, ?_⟩ <;>
    · rintro rfl
      revert h
      decide
  · rintro rfl
    revert h
    decide
  · rintro rfl
    revert h
    decide

/-- Extraction of an unsigned run of digits that fills the buffer. -/
theorem extractInt_digits (k : IntKind) (ds : Str) (hne : ds ≠ [])
    (hd : ∀ c ∈ ds, isdigit c = true) (hfit : (digitsValue ds : Int) ≤ k.max) :
    (StringStream.put ds).extractInt k =
      (some (digitsValue ds : Int), { buf := [], eofbit := true, failbit := false }) := by
  obtain ⟨c, cs, rfl⟩ := List.exists_cons_of_ne_nil hne
  obtain ⟨h1, h2, h3⟩ := isdigit_not_space (hd c (List.mem_cons_self _ _))
  have ht : List.takeWhile isdigit (c :: cs) = c :: cs :=
    List.takeWhile_eq_self_iff.mpr hd
  have hdr : List.dropWhile isdigit (c :: cs) = [] :=
    List.dropWhile_eq_nil_iff.mpr hd
  have hlim : ¬ (k.max < (digitsValue (c :: cs) : Int)) := not_lt.mpr hfit
  simp only [StringStream.extractInt, StringStream.sentry, StringStream.put,
    List.dropWhile_cons, h1, Bool.false_eq_true, if_false, List.head?_cons,
    Option.some.injEq, h2, h3, decide_False, Bool.or_self, ht, hdr, List.isEmpty_nil,
    List.isEmpty_cons, hlim, Bool.false_and]

/-- Extraction of a minus sign and a run of digits that fills the buffer, at a signed
type. -/
theorem extractInt_neg_digits (k : IntKind) (ds : Str) (hne : ds ≠ [])
    (hd : ∀ c ∈ ds, isdigit c = true) (hs : k.signed = true)
    (hfit : (digitsValue ds : Int) ≤ -k.min) :
    (StringStream.put ('-' :: ds)).extractInt k =
      (some (-(digitsValue ds : Int)), { buf := [], eofbit := true, failbit := false }) := by
  obtain ⟨c, cs, rfl⟩ := List.exists_cons_of_ne_nil hne
  have ht : List.takeWhile isdigit (c :: cs) = c :: cs :=
    List.takeWhile_eq_self_iff.mpr hd
  have hdr : List.dropWhile isdigit (c :: cs) = [] :=
    List.dropWhile_eq_nil_iff.mpr hd
  have hlim : ¬ (-k.min < (digitsValue (c :: cs) : Int)) := not_lt.mpr hfit
  have hsp : isspace '-' = false := by decide
  simp only [StringStream.extractInt, StringStream.sentry, StringStream.put,
    List.dropWhile_cons, hsp, Bool.false_eq_true, if_false, List.head?_cons,
    decide_True, Bool.true_or, if_true, List.tail_cons, ht, hdr, List.isEmpty_nil,
    List.isEmpty_cons, hs, Bool.and_self, hlim]

/-- Integers survive the way through their decimal text. -/
theorem cast_integer_text (k : IntKind) (n : Int) (h : Value.InRange (.integer k n)) :
    cast (.integer k) (Value.integer k n).text = .ok (.integer k n) := by
  obtain ⟨hlo, hhi⟩ := h
  by_cases hn : n < 0
  · have hs : k.signed = true := by
      by_contra hc
      have : k.min = 0 := by simp [IntKind.min, hc]
      omega
    obtain ⟨h1, h2, h3⟩ := toDigits_spec n.natAbs
    have e := extractInt_neg_digits k (Nat.toDigits 10 n.natAbs) h1 h2 hs (by rw [h3]; omega)
    have hv : -((digitsValue (Nat.toDigits 10 n.natAbs) : Nat) : Int) = n := by
      rw [h3]; omega
    simp only [Value.text, hn, if_true, cast, StringStream.extract, e, Option.map_some', hv,
      Bool.not_false, Bool.and_self]
  · obtain ⟨h1, h2, h3⟩ := toDigits_spec n.toNat
    have e := extractInt_digits k (Nat.toDigits 10 n.toNat) h1 h2 (by rw [h3]; omega)
    have hv : ((digitsValue (Nat.toDigits 10 n.toNat) : Nat) : Int) = n := by
      rw [h3]; omega
    simp only [Value.text, hn, if_false, cast, StringStream.extract, e, Option.map_some', hv,
      Bool.not_false, Bool.and_self, if_true]

/-- A non-empty text without whitespace survives `cast<std::string>`. -/
theorem cast_string_text (s : Str) (hne : s ≠ []) (hs : ∀ c ∈ s, isspace c = false) :
    cast .string (Value.string s).text = .ok (.string s) := by
  obtain ⟨c, cs, rfl⟩ := List.exists_cons_of_ne_nil hne
  have h1 := hs c (List.mem_cons_self _ _)
  have ht : List.takeWhile (fun c => !isspace c) (c :: cs) = c :: cs :=
    List.takeWhile_eq_self_iff.mpr (fun x hx => by simp [hs x hx])
  have hdr : List.dropWhile (fun c => !isspace c) (c :: cs) = [] :=
    List.dropWhile_eq_nil_iff.mpr (fun x hx => by simp [hs x hx])
  simp only [Value.text, cast, StringStream.extract, StringStream.extractString,
    StringStream.sentry, StringStream.put, List.dropWhile_cons, h1, Bool.false_eq_true,
    if_false, ht, hdr, List.isEmpty_nil, Option.map_some', Bool.not_false, Bool.and_self,
    if_true]

/-- The extractor for `char` never sets `eofbit` when it delivers a character, so
`cast<char>` and `cast<unsigned char>` throw on every word. -/
theorem cast_char_throws (word : Str) :
    cast .char word = .error .badCast ∧ cast .uchar word = .error .badCast := by
  have key : ∀ c ss1, (StringStream.put word).extractChar = (some c, ss1) →
      ss1.eofbit = false := by
    intro c ss1 h
    simp only [StringStream.extractChar, StringStream.sentry, StringStream.put] at h
    cases hw : List.dropWhile isspace word with
    | nil => simp [hw] at h
    | cons d ds =>
      simp only [hw, Bool.false_eq_true, if_false, Prod.mk.injEq, Option.some.injEq] at h
      rw [← h.2]
  constructor
  · simp only [cast, StringStream.extract]
    cases he : (StringStream.put word).extractChar with
    | mk r ss1 =>
      cases r with
      | none => rfl
      | some c => simp [key c ss1 he]
  · simp only [cast, StringStream.extract]
    cases he : (StringStream.put word).extractChar with
    | mk r ss1 =>
      cases r with
      | none => rfl
      | some c => simp [key c ss1 he]

/-- C9, as the code has it: for every integer alternative and every value in its range,
`cast<T>` of the decimal text of the value is the value; for text, `cast<std::string>` of a
non-empty text without whitespace is that text; `cast<bool>` turns the words `true` and
`false` into the two booleans; and `cast<int>("42")` is `42`. -/
theorem cast_text_roundtrip :
    (∀ (k : IntKind) (n : Int), Value.InRange (.integer k n) →
      cast (.integer k) (Value.integer k n).text = .ok (.integer k n)) ∧
    (∀ s : Str, s ≠ [] → (∀ c ∈ s, isspace c = false) →
      cast .string (Value.string s).text = .ok (.string s)) ∧
    cast .bool "true".data = .ok (.bool true) ∧
    cast .bool "false".data = .ok (.bool false) ∧
    cast (.integer .int) "42".data = .ok (.integer .int 42) :=
  ⟨cast_integer_text, cast_string_text, by decide, by decide, by decide⟩

/-- C9 as stated fails: the library prints the boolean `true` as `1`, which `cast<bool>`
rejects; the empty text and a text with a blank in it are rejected by
`cast<std::string>`, and a text with a leading blank comes back without it. -/
theorem cast_text_roundtrip_counterexample :
    (Value.bool true).text = "1".data ∧
    cast .bool (Value.bool true).text = .error .badCast ∧
    cast .bool (Value.bool false).text = .error .badCast ∧
    cast .string (Value.string []).text = .error .badCast ∧
    cast .string (Value.string "a b".data).text = .error .badCast ∧
    cast .string (Value.string " a".data).text = .ok (.string "a".data) := by
  refine ⟨?_, ?_, ?_, ?_, ?_, ?_⟩ <;> decide

/-! ## The lookahead of a round, and parsing in pieces -/

theorem App.bind_value_next {app a : App} {w : Str} {nw : Option Str} {o : OptionValue}
    {k : Nat} (h : App.bind_value app w nw o = .next a k) : k = 2 := by
  cases nw with
  | none => simp [App.bind_value] at h
  | some x =>
    simp only [App.bind_value] at h
    split at h
    · cases h
    · injection h with _ h2
      exact h2.symm

/-- The next word matters to a round only through the value binding. -/
theorem App.classify_lookahead (app : App) (w : Str) (nw nw1 : Option Str) :
    app.classify w nw = app.classify w nw1 ∨
    ∃ o, app.classify w nw = App.bind_value app w nw o ∧
      app.classify w nw1 = App.bind_value app w nw1 o := by
  have hd : ∀ (o : Option OptionValue) (f : Option FlagValue),
      App.dispatch app w nw o f = App.dispatch app w nw1 o f ∨
      ∃ o1, App.dispatch app w nw o f = App.bind_value app w nw o1 ∧
        App.dispatch app w nw1 o f = App.bind_value app w nw1 o1 := by
    intro o f
    cases o with
    | none => cases f <;> exact Or.inl rfl
    | some o => exact Or.inr ⟨o, rfl, rfl⟩
  simp only [App.classify]
  split_ifs
  all_goals first
    | exact Or.inl rfl
    | exact hd _ _

/-- A round that moves one word ahead does the same whatever the next word is. -/
theorem App.classify_next_one {app a : App} {w : Str} {nw : Option Str}
    (h : app.classify w nw = .next a 1) (nw1 : Option Str) :
    app.classify w nw1 = .next a 1 := by
  rcases App.classify_lookahead app w nw nw1 with e | ⟨o, e1, _⟩
  · rw [← e]; exact h
  · rw [e1] at h
    have := App.bind_value_next h
    omega

/-- A round that moves two words ahead has found a next word that does not start with
`-`. -/
theorem App.classify_next_two {app a : App} {w : Str} {nw : Option Str}
    (h : app.classify w nw = .next a 2) :
    ∃ x, nw = some x ∧ App.starts_with "-".data x = false := by
  rcases App.classify_next_cases h with ⟨_, hk, _⟩ | ⟨hk, _⟩ | ⟨_, x, o, _, hn, hx, _⟩
  · omega
  · omega
  · exact ⟨x, hn, hx⟩

/-- The help outcome comes from a help word. -/
theorem App.classify_stop_help {app a : App} {w : Str} {nw : Option Str}
    (h : app.classify w nw = .stop .help a) : w = "-h".data ∨ w = "--help".data := by
  by_cases hw : w = "-h".data ∨ w = "--help".data
  · exact hw
  · simp only [App.classify, hw, if_false, App.dispatch, App.bind_value] at h
    repeat' split at h
    all_goals cases h

theorem App.classify_help_word (app : App) (w : Str) (nw : Option Str)
    (hw : w = "-h".data ∨ w = "--help".data) : app.classify w nw = .stop .help app := by
  simp only [App.classify, hw, if_true]

/-- Parsing in two pieces: when `parse(a)` returns normally, `parse(a ++ b)` is `parse(b)`
run on what `parse(a)` left. -/
theorem App.parse_append : ∀ (n : Nat) (a b : List Str) (app app1 : App), a.length ≤ n →
    app.parse a = (.ok, app1) → app.parse (a ++ b) = app1.parse b := by
  intro n
  induction n with
  | zero =>
    intro a b app app1 hl h
    have : a = [] := List.eq_nil_of_length_eq_zero (by omega)
    subst this
    rw [App.parse_nil] at h
    injection h with _ h2
    subst h2
    rfl
  | succ n ih =>
    intro a b app app1 hl h
    cases a with
    | nil =>
      rw [App.parse_nil] at h
      injection h with _ h2
      subst h2
      rfl
    | cons w a1 =>
      rw [App.parse_cons] at h
      simp only [List.cons_append]
      rw [App.parse_cons]
      simp only [List.length_cons] at hl
      cases hc : app.classify w a1.head? with
      | stop o a2 =>
        rw [hc] at h
        simp only [Prod.mk.injEq] at h
        rw [h.1] at hc
        exact (App.classify_stop_ne_ok hc).elim
      | next a2 k =>
        rw [hc] at h
        simp only at h
        rcases (App.classify_next hc).2 with e | e
        · subst e
          rw [App.classify_next_one hc]
          simp only [Nat.sub_self, List.drop_zero] at h ⊢
          exact ih a1 b a2 app1 (by omega) h
        · subst e
          obtain ⟨x, hx, _⟩ := App.classify_next_two hc
          cases a1 with
          | nil => simp at hx
          | cons y a3 =>
            simp only [List.cons_append, List.head?_cons] at hc ⊢
            rw [hc]
            simp only [Nat.add_one_sub_one, List.drop_succ_cons, List.drop_zero] at h ⊢
            simp only [List.length_cons] at hl
            exact ih a3 b a2 app1 (by omega) h

/-- A parse that does not return normally stopped in the round at some position `k`: the
words before `k` parse normally, to the state the parse left, and the round at `k` is the
one that stopped. -/
theorem App.parse_stopped : ∀ (n : Nat) (ws : List Str) (app a : App) (o : Outcome),
    ws.length ≤ n → app.parse ws = (o, a) → o ≠ .ok →
    ∃ k w, ws[k]? = some w ∧ app.parse (ws.take k) = (.ok, a) ∧
      a.classify w ws[k + 1]? = .stop o a := by
  intro n
  induction n with
  | zero =>
    intro ws app a o hl h ho
    have : ws = [] := List.eq_nil_of_length_eq_zero (by omega)
    subst this
    rw [App.parse_nil] at h
    injection h with h1 _
    exact absurd h1.symm ho
  | succ n ih =>
    intro ws app a o hl h ho
    cases ws with
    | nil =>
      rw [App.parse_nil] at h
      injection h with h1 _
      exact absurd h1.symm ho
    | cons w rest =>
      rw [App.parse_cons] at h
      simp only [List.length_cons] at hl
      have e1 : (w :: rest)[0 + 1]? = rest.head? := by cases rest <;> simp
      cases hc : app.classify w rest.head? with
      | stop o1 a1 =>
        rw [hc] at h
        simp only [Prod.mk.injEq] at h
        obtain ⟨rfl, rfl⟩ := h
        have := App.classify_stop hc
        subst this
        exact ⟨0, w, by simp, by simp [App.parse_nil], by rw [e1]; exact hc⟩
      | next a2 j =>
        rw [hc] at h
        simp only at h
        rcases (App.classify_next hc).2 with e | e
        · subst e
          simp only [Nat.sub_self, List.drop_zero] at h
          obtain ⟨k, w1, hk, hp, hs⟩ := ih rest a2 a o (by omega) h ho
          refine ⟨k + 1, w1, by simpa using hk, ?_, by simpa using hs⟩
          rw [List.take_succ_cons, App.parse_cons, App.classify_next_one hc]
          simpa using hp
        · subst e
          obtain ⟨x, hx, _⟩ := App.classify_next_two hc
          cases rest with
          | nil => simp at hx
          | cons y rest1 =>
            simp only [Nat.add_one_sub_one, List.drop_succ_cons, List.drop_zero] at h
            simp only [List.length_cons] at hl
            obtain ⟨k, w1, hk, hp, hs⟩ := ih rest1 a2 a o (by omega) h ho
            refine ⟨k + 2, w1, by simpa using hk, ?_, by simpa using hs⟩
            rw [List.take_succ_cons, List.take_succ_cons, App.parse_cons]
            simp only [List.head?_cons] at hc ⊢
            rw [hc]
            simpa using hp

/-- A property of the object that every round keeps is kept by `parse`. -/
theorem App.parse_invariant (P : App → Prop)
    (hstep : ∀ (a a1 : App) (w : Str) (nw : Option Str) (k : Nat), P a →
      a.classify w nw = .next a1 k → P a1) :
    ∀ (n : Nat) (ws : List Str) (app : App), ws.length ≤ n → P app → P (app.parse ws).2 := by
  intro n
  induction n with
  | zero =>
    intro ws app hl hp
    have : ws = [] := List.eq_nil_of_length_eq_zero (by omega)
    subst this
    exact hp
  | succ n ih =>
    intro ws app hl hp
    cases ws with
    | nil => exact hp
    | cons w rest =>
      rw [App.parse_cons]
      cases hc : app.classify w rest.head? with
      | stop o a =>
        simp only
        rw [App.classify_stop hc]
        exact hp
      | next a k =>
        simp only
        refine ih _ a ?_ (hstep app a w _ k hp hc)
        simp only [List.length_cons, List.length_drop] at hl ⊢
        omega

/-- A round only ever appends to one of the three parsed sequences. -/
theorem App.classify_next_grows {app a : App} {w : Str} {nw : Option Str} {k : Nat}
    (h : app.classify w nw = .next a k) :
    a.clear_parsed = app.clear_parsed ∧
    (∃ t, a.m_parsed_arguments = app.m_parsed_arguments ++ t) ∧
    (∃ t, a.m_parsed_options = app.m_parsed_options ++ t) ∧
    (∃ t, a.m_parsed_flag_options = app.m_parsed_flag_options ++ t) := by
  rcases App.classify_next_cases h with ⟨_, _, ha⟩ | ⟨_, f, _, ha, _⟩ | ⟨_, x, o, _, _, _, ha, _⟩
  · subst ha
    exact ⟨rfl, ⟨[w], rfl⟩, ⟨[], by simp⟩, ⟨[], by simp⟩⟩
  · subst ha
    exact ⟨rfl, ⟨[], by simp⟩, ⟨[], by simp⟩, ⟨[f], rfl⟩⟩
  · subst ha
    exact ⟨rfl, ⟨[], by simp⟩, ⟨[(x, o)], rfl⟩, ⟨[], by simp⟩⟩

/-- The function `parse` changes nothing but the three parsed sequences, and those only by
appending. -/
theorem App.parse_grows (app : App) (ws : List Str) :
    (app.parse ws).2.clear_parsed = app.clear_parsed ∧
    (∃ t, (app.parse ws).2.m_parsed_arguments = app.m_parsed_arguments ++ t) ∧
    (∃ t, (app.parse ws).2.m_parsed_options = app.m_parsed_options ++ t) ∧
    (∃ t, (app.parse ws).2.m_parsed_flag_options = app.m_parsed_flag_options ++ t) := by
  refine App.parse_invariant
    (fun a => a.clear_parsed = app.clear_parsed ∧
      (∃ t, a.m_parsed_arguments = app.m_parsed_arguments ++ t) ∧
      (∃ t, a.m_parsed_options = app.m_parsed_options ++ t) ∧
      (∃ t, a.m_parsed_flag_options = app.m_parsed_flag_options ++ t))
    ?_ ws.length ws app le_rfl ⟨rfl, ⟨[], by simp⟩, ⟨[], by simp⟩, ⟨[], by simp⟩⟩
  rintro a a1 w nw k ⟨h1, ⟨t1, h2⟩, ⟨t2, h3⟩, ⟨t3, h4⟩⟩ hc
  obtain ⟨g1, ⟨u1, g2⟩, ⟨u2, g3⟩, ⟨u3, g4⟩⟩ := App.classify_next_grows hc
  exact ⟨g1.trans h1, ⟨t1 ++ u1, by rw [g2, h2, List.append_assoc]⟩,
    ⟨t2 ++ u2, by rw [g3, h3, List.append_assoc]⟩,
    ⟨t3 ++ u3, by rw [g4, h4, List.append_assoc]⟩⟩

/-! ## Help, accumulation and failure -/

/-- C11: `parse(ws)` ends with the help outcome exactly when some word `ws[k]` is `-h` or
`--help` and the words before it parse normally from the same state; then the object is
left as the parse of those words left it, so no word behind position `k` is classified. -/
theorem help_requested_iff (app : App) (ws : List Str) :
    ((app.parse ws).1 = .help ↔
      ∃ k w, ws[k]? = some w ∧ (w = "-h".data ∨ w = "--help".data) ∧
        (app.parse (ws.take k)).1 = .ok) ∧
    (∀ k w, ws[k]? = some w → (w = "-h".data ∨ w = "--help".data) →
      (app.parse (ws.take k)).1 = .ok →
      app.parse ws = (.help, (app.parse (ws.take k)).2)) := by
  have back : ∀ k w, ws[k]? = some w → (w = "-h".data ∨ w = "--help".data) →
      (app.parse (ws.take k)).1 = .ok →
      app.parse ws = (.help, (app.parse (ws.take k)).2) := by
    intro k w hk hw hok
    obtain ⟨hlt, hget⟩ := List.getElem?_eq_some.mp hk
    have hws : ws = ws.take k ++ w :: ws.drop (k + 1) := by
      rw [← hget, ← List.drop_eq_getElem_cons hlt, List.take_append_drop]
    have hp : app.parse (ws.take k) = (.ok, (app.parse (ws.take k)).2) := by
      rw [← hok]
    calc app.parse ws = app.parse (ws.take k ++ w :: ws.drop (k + 1)) := congrArg _ hws
      _ = (app.parse (ws.take k)).2.parse (w :: ws.drop (k + 1)) :=
        App.parse_append _ _ _ _ _ le_rfl hp
      _ = (.help, (app.parse (ws.take k)).2) := by
        rw [App.parse_cons, App.classify_help_word _ w _ hw]
  refine ⟨⟨?_, ?_⟩, back⟩
  · intro h
    have hp : app.parse ws = (.help, (app.parse ws).2) := by rw [← h]
    obtain ⟨k, w, hk, hpre, hs⟩ := App.parse_stopped _ ws app _ _ le_rfl hp (by simp)
    exact ⟨k, w, hk, App.classify_stop_help hs, by rw [hpre]⟩
  · rintro ⟨k, w, hk, hw, hok⟩
    rw [back k w hk hw hok]

/-- C12: when `parse(a)` returns normally, `parse(b)` run on what it left gives the same
outcome and the same object as one `parse(a ++ b)` from the start; the three parsed
sequences after the second call begin with what the first call left. -/
theorem parse_accumulates (app : App) (a b : List Str) (h : (app.parse a).1 = .ok) :
    (app.parse a).2.parse b = app.parse (a ++ b) ∧
    (∃ t, ((app.parse a).2.parse b).2.m_parsed_arguments
      = (app.parse a).2.m_parsed_arguments ++ t) ∧
    (∃ t, ((app.parse a).2.parse b).2.m_parsed_options
      = (app.parse a).2.m_parsed_options ++ t) ∧
    (∃ t, ((app.parse a).2.parse b).2.m_parsed_flag_options
      = (app.parse a).2.m_parsed_flag_options ++ t) := by
  have hp : app.parse a = (.ok, (app.parse a).2) := by rw [← h]
  obtain ⟨_, g2, g3, g4⟩ := App.parse_grows (app.parse a).2 b
  exact ⟨(App.parse_append _ a b app _ le_rfl hp).symm, g2, g3, g4⟩

/-- C12 at the sample program: `add` and then `--left 5` give what `add --left 5` gives. -/
theorem parse_accumulates_witness :
    (sample.2.parse ["add".data]).2.parse ["--left".data, "5".data]
      = sample.2.parse ["add".data, "--left".data, "5".data] := by
  have t := parse_accumulates sample.2 ["add".data] ["--left".data, "5".data] (by decide)
  exact t.1

/-- C13: when `parse(ws)` throws, it throws in the round at some position `k`; the object
it leaves is the one a parse of the words before `k` leaves, that parse returning normally;
and it differs from the object before the call in the three parsed sequences only: the
declarations and the name sets are as they were. -/
theorem parse_failure_state (app : App) (ws : List Str) (e : Error)
    (h : (app.parse ws).1 = .error e) :
    (∃ k w, ws[k]? = some w ∧
      app.parse (ws.take k) = (.ok, (app.parse ws).2) ∧
      (app.parse ws).2.classify w ws[k + 1]? = .stop (.error e) (app.parse ws).2) ∧
    (app.parse ws).2.clear_parsed = app.clear_parsed ∧
    (app.parse ws).2.m_arguments = app.m_arguments ∧
    (app.parse ws).2.m_options = app.m_options ∧
    (app.parse ws).2.m_flag_options = app.m_flag_options ∧
    (app.parse ws).2.m_arg_name_set = app.m_arg_name_set ∧
    (app.parse ws).2.m_option_name_set = app.m_option_name_set ∧
    (app.parse ws).2.m_option_short_name_set = app.m_option_short_name_set := by
  have hp : app.parse ws = (.error e, (app.parse ws).2) := by rw [← h]
  have hc := (App.parse_grows app ws).1
  have f1 := congrArg App.m_arguments hc
  have f2 := congrArg App.m_options hc
  have f3 := congrArg App.m_flag_options hc
  have f4 := congrArg App.m_arg_name_set hc
  have f5 := congrArg App.m_option_name_set hc
  have f6 := congrArg App.m_option_short_name_set hc
  exact ⟨App.parse_stopped _ ws app _ _ le_rfl hp (by simp), hc, f1, f2, f3, f4, f5, f6⟩

/-- C13 at the sample program: `add --foo sub` fails at `--foo` and leaves what `add`
leaves. -/
theorem parse_failure_state_witness :
    (sample.2.parse ["add".data, "--foo".data, "sub".data]).1
      = .error (.unrecognizedOption "--foo".data) ∧
    (sample.2.parse ["add".data, "--foo".data, "sub".data]).2.m_parsed_arguments
      = ["add".data] ∧
    (sample.2.parse ["add".data, "--foo".data, "sub".data]).2.m_options
      = sample.2.m_options := by
  have t := parse_failure_state sample.2 ["add".data, "--foo".data, "sub".data]
    (.unrecognizedOption "--foo".data) (by decide)
  exact ⟨by decide, by decide, t.2.2.2.1⟩

/-! ## Counting the words -/

/-- A round accounts for as many words as it moves ahead. -/
theorem App.classify_next_accounted {app a : App} {w : Str} {nw : Option Str} {k : Nat}
    (h : app.classify w nw = .next a k) : a.accounted = app.accounted + k := by
  rcases App.classify_next_cases h with ⟨_, hk, ha⟩ | ⟨hk, f, _, ha, _⟩ |
    ⟨hk, x, o, _, _, _, ha, _⟩
  · subst ha; subst hk
    simp only [App.accounted, List.length_append, List.length_singleton]
    omega
  · subst ha; subst hk
    simp only [App.accounted, List.length_append, List.length_singleton]
    omega
  · subst ha; subst hk
    simp only [App.accounted, List.length_append, List.length_singleton]
    omega

theorem App.parse_accounted : ∀ (n : Nat) (ws : List Str) (app : App), ws.length ≤ n →
    (app.parse ws).1 = .ok → (app.parse ws).2.accounted = app.accounted + ws.length := by
  intro n
  induction n with
  | zero =>
    intro ws app hl _
    have : ws = [] := List.eq_nil_of_length_eq_zero (by omega)
    subst this
    simp [App.parse_nil]
  | succ n ih =>
    intro ws app hl hok
    cases ws with
    | nil => simp [App.parse_nil]
    | cons w rest =>
      rw [App.parse_cons] at hok ⊢
      simp only [List.length_cons] at hl
      cases hc : app.classify w rest.head? with
      | stop o a =>
        rw [hc] at hok
        simp only at hok
        subst hok
        exact (App.classify_stop_ne_ok hc).elim
      | next a k =>
        rw [hc] at hok
        simp only at hok ⊢
        have hacc := App.classify_next_accounted hc
        rcases (App.classify_next hc).2 with e | e
        · subst e
          simp only [Nat.sub_self, List.drop_zero] at hok ⊢
          rw [ih rest a (by omega) hok, hacc, List.length_cons]
          omega
        · subst e
          obtain ⟨x, hx, _⟩ := App.classify_next_two hc
          cases rest with
          | nil => simp at hx
          | cons y rest1 =>
            simp only [Nat.add_one_sub_one, List.drop_succ_cons, List.drop_zero] at hok ⊢
            simp only [List.length_cons] at hl
            rw [ih rest1 a (by omega) hok, hacc]
            simp only [List.length_cons]
            omega

/-- C19: a `parse` of `n` words that returns normally raises the number of parsed
arguments plus the number of parsed flags plus twice the number of parsed options by
exactly `n`; started with nothing parsed, that number is `n` afterwards. -/
theorem every_word_accounted (app : App) (ws : List Str) (h : (app.parse ws).1 = .ok) :
    (app.parse ws).2.m_parsed_arguments.length + (app.parse ws).2.m_parsed_flag_options.length
        + 2 * (app.parse ws).2.m_parsed_options.length
      = app.m_parsed_arguments.length + app.m_parsed_flag_options.length
        + 2 * app.m_parsed_options.length + ws.length ∧
    (app.m_parsed_arguments = [] → app.m_parsed_options = [] →
      app.m_parsed_flag_options = [] →
      (app.parse ws).2.m_parsed_arguments.length
          + (app.parse ws).2.m_parsed_flag_options.length
          + 2 * (app.parse ws).2.m_parsed_options.length = ws.length) := by
  have t := App.parse_accounted ws.length ws app le_rfl h
  simp only [App.accounted] at t
  refine ⟨t, ?_⟩
  intro h1 h2 h3
  rw [t, h1, h2, h3]
  simp

/-- C19 at the sample program: the five words of `add -v --left 5 sub` make two
arguments, one flag and one option. -/
theorem every_word_accounted_witness :
    (sample.2.parse ["add".data, "-v".data, "--left".data, "5".data,
        "sub".data]).2.m_parsed_arguments.length
      + (sample.2.parse ["add".data, "-v".data, "--left".data, "5".data,
        "sub".data]).2.m_parsed_flag_options.length
      + 2 * (sample.2.parse ["add".data, "-v".data, "--left".data, "5".data,
        "sub".data]).2.m_parsed_options.length = 5 := by
  have t := every_word_accounted sample.2
    ["add".data, "-v".data, "--left".data, "5".data, "sub".data] (by decide)
  exact t.2 (by decide) (by decide) (by decide)

/-! ## Words that start with a dash are never stored -/

theorem NoDash.classify {app a : App} {w : Str} {nw : Option Str} {k : Nat}
    (hn : NoDash app) (h : app.classify w nw = .next a k) : NoDash a := by
  obtain ⟨h1, h2⟩ := hn
  rcases App.classify_next_cases h with ⟨hp, _, ha⟩ | ⟨_, f, _, ha, _⟩ |
    ⟨_, x, o, _, _, hx, ha, _⟩
  · subst ha
    refine ⟨?_, h2⟩
    intro v hv
    rcases List.mem_append.mp hv with hv | hv
    · exact h1 v hv
    · rw [List.mem_singleton] at hv
      subst hv
      exact hp
  · subst ha
    exact ⟨h1, h2⟩
  · subst ha
    refine ⟨h1, ?_⟩
    intro p hp
    rcases List.mem_append.mp hp with hp | hp
    · exact h2 p hp
    · rw [List.mem_singleton] at hp
      subst hp
      exact hx

theorem NoDash.of_parsed {a b : App} (hn : NoDash a)
    (h1 : b.m_parsed_arguments = a.m_parsed_arguments)
    (h2 : b.m_parsed_options = a.m_parsed_options) : NoDash b := by
  unfold NoDash
  rw [h1, h2]
  exact hn

theorem NoDash.after_parse {app : App} (hn : NoDash app) (ws : List Str) :
    NoDash (app.parse ws).2 :=
  App.parse_invariant NoDash (fun _ _ _ _ _ hp hc => hp.classify hc) ws.length ws app
    le_rfl hn

/-- Declarations leave the parsed sequences alone. -/
theorem App.add_opt_parsed (app : App) (name : Str) (short_name : Option Char)
    (description : Option Str) (default_value : Option Value) :
    (app.add_opt name short_name description default_value).2.m_parsed_arguments
      = app.m_parsed_arguments ∧
    (app.add_opt name short_name description default_value).2.m_parsed_options
      = app.m_parsed_options ∧
    (app.add_opt name short_name description default_value).2.m_parsed_flag_options
      = app.m_parsed_flag_options ∧
    (app.add_opt name short_name description default_value).2.m_arguments
      = app.m_arguments ∧
    (app.add_opt name short_name description default_value).2.m_arg_name_set
      = app.m_arg_name_set := by
  by_cases h : (app.add_opt name short_name description default_value).1 = .ok
  · rw [(App.add_opt_ok h).2.2.2]
    exact ⟨rfl, rfl, rfl, rfl, rfl⟩
  · rcases App.add_opt_error h with e | e <;> rw [e] <;> exact ⟨rfl, rfl, rfl, rfl, rfl⟩

theorem App.add_flag_parsed (app : App) (name : Str) (short_name : Option Char)
    (description : Option Str) :
    (app.add_flag name short_name description).2.m_parsed_arguments
      = app.m_parsed_arguments ∧
    (app.add_flag name short_name description).2.m_parsed_options
      = app.m_parsed_options ∧
    (app.add_flag name short_name description).2.m_parsed_flag_options
      = app.m_parsed_flag_options ∧
    (app.add_flag name short_name description).2.m_arguments = app.m_arguments ∧
    (app.add_flag name short_name description).2.m_arg_name_set = app.m_arg_name_set := by
  by_cases h : (app.add_flag name short_name description).1 = .ok
  · rw [(App.add_flag_ok h).2.2.2]
    exact ⟨rfl, rfl, rfl, rfl, rfl⟩
  · rcases App.add_flag_error h with e | e <;> rw [e] <;> exact ⟨rfl, rfl, rfl, rfl, rfl⟩

theorem Reachable.no_dash {app : App} (h : Reachable app) : NoDash app := by
  induction h with
  | new n d =>
    rw [App.new_eq]
    simp [NoDash, App.init]
  | @add_arg app name d _ ih =>
    obtain ⟨_, h1, h2, _⟩ := App.add_arg_fields app name d
    exact ih.of_parsed h1 h2
  | @add_opt app name s d v _ ih =>
    obtain ⟨h1, h2, _⟩ := App.add_opt_parsed app name s d v
    exact ih.of_parsed h1 h2
  | @add_flag app name s d _ ih =>
    obtain ⟨h1, h2, _⟩ := App.add_flag_parsed app name s d
    exact ih.of_parsed h1 h2
  | parse words _ ih => exact ih.after_parse words
  | parse_line line _ ih => exact ih.after_parse _

/-- C20: in every reachable state no parsed argument and no raw value of a parsed option
starts with `-`; the word `-5` in particular is neither a parsed argument nor the raw
value of a parsed option, so no accessor can be handed it. -/
theorem parsed_tokens_no_dash {app : App} (h : Reachable app) :
    (∀ w ∈ app.m_parsed_arguments, App.starts_with "-".data w = false) ∧
    (∀ p ∈ app.m_parsed_options, App.starts_with "-".data p.1 = false) ∧
    "-5".data ∉ app.m_parsed_arguments ∧
    (∀ p ∈ app.m_parsed_options, p.1 ≠ "-5".data) := by
  obtain ⟨h1, h2⟩ := h.no_dash
  refine ⟨h1, h2, ?_, ?_⟩
  · intro hm
    have := h1 _ hm
    revert this
    decide
  · intro p hp e
    have := h2 p hp
    rw [e] at this
    revert this
    decide

/-- C20 at the sample program: after `add --left 5` nothing stored starts with `-`, and
`--left -5` stores nothing at all. -/
theorem parsed_tokens_no_dash_witness :
    "-5".data ∉ (sample.2.parse ["add".data, "--left".data, "5".data]).2.m_parsed_arguments ∧
    (∀ p ∈ (sample.2.parse ["--left".data, "-5".data]).2.m_parsed_options,
      p.1 ≠ "-5".data) := by
  have t1 := parsed_tokens_no_dash
    (sample_declared.reachable.parse ["add".data, "--left".data, "5".data])
  have t2 := parsed_tokens_no_dash
    (sample_declared.reachable.parse ["--left".data, "-5".data])
  exact ⟨t1.2.2.1, t2.2.2.2⟩

/-! ## The registry invariant -/

/-- What `add_arg` does: it stores the argument when the name is not empty and not yet in
the argument-name set, and changes nothing otherwise. -/
theorem App.add_arg_cases (app : App) (name : Str) (description : Option Str) :
    ((app.add_arg name description).1 = .ok ∧ name ≠ [] ∧ name ∉ app.m_arg_name_set ∧
      (app.add_arg name description).2 =
        { app with
          m_arg_name_set := name :: app.m_arg_name_set,
          m_arguments := app.m_arguments ++ [⟨some name, description⟩] }) ∨
    ((app.add_arg name description).1 ≠ .ok ∧ (app.add_arg name description).2 = app) := by
  unfold App.add_arg App.insert_arg_name
  by_cases h1 : name = []
  · right; simp [h1]
  · by_cases h2 : name ∈ app.m_arg_name_set
    · right; simp [h1, h2]
    · left; simp [h1, h2]

theorem ArgsRegistered.of_fields {a b : App} (r : ArgsRegistered a)
    (h1 : b.m_arguments = a.m_arguments) (h2 : b.m_arg_name_set = a.m_arg_name_set) :
    ArgsRegistered b :=
  ⟨by rw [h1, h2]; exact r.named, by rw [h1]; exact r.args_nodup⟩

theorem ArgsRegistered.after_add_arg {app : App} (r : ArgsRegistered app) (name : Str)
    (description : Option Str) : ArgsRegistered (app.add_arg name description).2 := by
  rcases App.add_arg_cases app name description with ⟨_, h1, h2, e⟩ | ⟨_, e⟩
  · rw [e]
    refine ⟨?_, ?_⟩
    · intro a ha
      rcases List.mem_append.mp ha with ha | ha
      · obtain ⟨n, hn1, hn2, hn3⟩ := r.named a ha
        exact ⟨n, hn1, hn2, List.mem_cons_of_mem _ hn3⟩
      · rw [List.mem_singleton] at ha
        subst ha
        exact ⟨name, rfl, h1, List.mem_cons_self _ _⟩
    · simp only [List.map_append, List.map_cons, List.map_nil]
      rw [List.nodup_append]
      refine ⟨r.args_nodup, List.nodup_singleton _, ?_⟩
      intro x hx hx2
      rw [List.mem_singleton] at hx2
      subst hx2
      obtain ⟨a, ha, hae⟩ := List.mem_map.mp hx
      obtain ⟨n, hn1, _, hn3⟩ := r.named a ha
      rw [hn1] at hae
      injection hae with hae
      exact h2 (hae ▸ hn3)
  · rw [e]
    exact r

theorem Reachable.args_registered {app : App} (h : Reachable app) : ArgsRegistered app := by
  induction h with
  | new n d =>
    rw [App.new_eq]
    exact ⟨by simp [App.init], by simp [App.init]⟩
  | add_arg name d _ ih => exact ih.after_add_arg name d
  | @add_opt app name s d v _ ih =>
    obtain ⟨_, _, _, h1, h2⟩ := App.add_opt_parsed app name s d v
    exact ih.of_fields h1 h2
  | @add_flag app name s d _ ih =>
    obtain ⟨_, _, _, h1, h2⟩ := App.add_flag_parsed app name s d
    exact ih.of_fields h1 h2
  | @parse app words _ ih =>
    have hc := (App.parse_grows app words).1
    have f1 := congrArg App.m_arguments hc
    have f2 := congrArg App.m_arg_name_set hc
    exact ih.of_fields f1 f2
  | @parse_line app line _ ih =>
    have hc := (App.parse_grows app (App.split_line [] line)).1
    have f1 := congrArg App.m_arguments hc
    have f2 := congrArg App.m_arg_name_set hc
    exact ih.of_fields f1 f2

/-- C16: in every state reachable from the constructor by `add_arg`, `add_opt`, `add_flag`
and `parse` calls, failed ones included, the names of the stored options and flags taken
together are non-empty and pairwise distinct, their present short names are pairwise
distinct, and every stored argument has a non-empty name, the argument names being
pairwise distinct. -/
theorem registry_invariant {app : App} (h : Reachable app) :
    (∀ n ∈ app.names, n ≠ []) ∧ app.names.Nodup ∧ app.shorts.Nodup ∧
    (∀ a ∈ app.m_arguments, ∃ n, a.m_name = some n ∧ n ≠ []) ∧
    (app.m_arguments.map (fun a => a.m_name)).Nodup := by
  have r := h.is_registered
  have ra := h.args_registered
  refine ⟨r.names_ne, r.names_nodup, r.shorts_nodup, ?_, ra.args_nodup⟩
  intro a ha
  obtain ⟨n, h1, h2, _⟩ := ra.named a ha
  exact ⟨n, h1, h2⟩

/-- C16 at the sample program, after a failed declaration and a parse: the stored names
are `left`, `med`, `right`, `help`, `verbose`, all distinct. -/
theorem registry_invariant_witness :
    ((sample.2.add_opt "left".data (some 'x') none none).2.parse ["add".data]).2.names
      = ["left".data, "med".data, "right".data, "help".data, "verbose".data] ∧
    ((sample.2.add_opt "left".data (some 'x') none none).2.parse
      ["add".data]).2.names.Nodup := by
  have t := registry_invariant
    ((sample_declared.reachable.add_opt "left".data (some 'x') none none).parse
      ["add".data])
  exact ⟨by decide, t.2.1⟩

/-! ## Termination of the scan -/

theorem App.parse_positions_succ (words : List Str) : ∀ (fuel pos : Nat) (app : App),
    words.length - pos ≤ fuel →
    App.parse_positions words (fuel + 1) pos app = App.parse_positions words fuel pos app := by
  intro fuel
  induction fuel with
  | zero =>
    intro pos app h
    have : words[pos]? = none := List.getElem?_eq_none (by omega)
    simp [App.parse_positions, this]
  | succ fuel ih =>
    intro pos app h
    rw [App.parse_positions]
    conv_rhs => rw [App.parse_positions]
    cases hw : words[pos]? with
    | none => rfl
    | some w =>
      simp only
      cases hc : app.classify w words[pos + 1]? with
      | stop o a => rfl
      | next a k =>
        simp only
        have hk := (App.classify_next hc).2
        rw [ih (pos + k) a (by omega)]

theorem App.parse_positions_fuel (words : List Str) (app : App) (d : Nat) :
    App.parse_positions words (words.length + d) 0 app
      = App.parse_positions words words.length 0 app := by
  induction d with
  | zero => rfl
  | succ d ih =>
    rw [← Nat.add_assoc, App.parse_positions_succ words _ 0 app (by omega), ih]

/-- The positions of the rounds: they start at `pos`, go up by one or two, stay below
`n`, and there are at most `n - pos` of them. -/
theorem App.parse_positions_spec (words : List Str) : ∀ (fuel pos : Nat) (app : App),
    List.Chain' (fun p q => q = p + 1 ∨ q = p + 2) (App.parse_positions words fuel pos app) ∧
    (∀ y ∈ (App.parse_positions words fuel pos app).head?, y = pos) ∧
    (∀ p ∈ App.parse_positions words fuel pos app, p < words.length) ∧
    (App.parse_positions words fuel pos app).length ≤ words.length - pos := by
  intro fuel
  induction fuel with
  | zero => intro pos app; simp [App.parse_positions]
  | succ fuel ih =>
    intro pos app
    rw [App.parse_positions]
    cases hw : words[pos]? with
    | none => simp
    | some w =>
      have hlt : pos < words.length := by
        by_contra hc
        have : words[pos]? = none := List.getElem?_eq_none (by omega)
        rw [hw] at this
        cases this
      simp only
      cases hc : app.classify w words[pos + 1]? with
      | stop o a =>
        simp only [List.chain'_singleton, List.head?_cons, Option.mem_def, Option.some.injEq,
          List.mem_singleton, List.length_singleton, true_and]
        exact ⟨fun y hy => hy.symm, fun p hp => hp ▸ hlt, by omega⟩
      | next a k =>
        simp only
        obtain ⟨h1, h2, h3, h4⟩ := ih (pos + k) a
        have hk : (k = 1 ∨ k = 2) ∧ pos + k ≤ words.length := by
          rcases (App.classify_next hc).2 with e | e
          · exact ⟨Or.inl e, by omega⟩
          · subst e
            obtain ⟨x, hx, _⟩ := App.classify_next_two hc
            have : pos + 1 < words.length := by
              by_contra hcon
              have : words[pos + 1]? = none := List.getElem?_eq_none (by omega)
              rw [hx] at this
              cases this
            exact ⟨Or.inr rfl, by omega⟩
        refine ⟨?_, ?_, ?_, ?_⟩
        · rw [List.chain'_cons']
          refine ⟨?_, h1⟩
          intro y hy
          rw [h2 y hy]
          rcases hk.1 with e | e <;> subst e <;> simp
        · simp
        · intro p hp
          rcases List.mem_cons.mp hp with e | e
          · exact e ▸ hlt
          · exact h3 p e
        · simp only [List.length_cons]
          omega

/-- C17: the loop of `parse` over `n` words ends within `n` rounds, so that any fuel of
at least `n` gives the result of `parse` and the same rounds. A round that goes on moves
the position ahead by exactly one, or by exactly two when it consumed a value, and then
the word at `pos + 1` exists; the position never passes `n`. The rounds run at positions
below `n` that go up by one or two, and there are at most `n` of them. -/
theorem scan_terminates (app : App) (words : List Str) :
    (∀ fuel, words.length ≤ fuel →
      App.parse_loop words fuel 0 app = app.parse words ∧
      App.parse_positions words fuel 0 app
        = App.parse_positions words words.length 0 app) ∧
    (∀ (a a1 : App) (pos : Nat) (w : Str) (k : Nat), words[pos]? = some w →
      a.classify w words[pos + 1]? = .next a1 k →
      (k = 1 ∨ (k = 2 ∧ ∃ x, words[pos + 1]? = some x ∧ pos + 1 < words.length)) ∧
      pos + k ≤ words.length) ∧
    List.Chain' (fun p q => q = p + 1 ∨ q = p + 2)
      (App.parse_positions words words.length 0 app) ∧
    (∀ p ∈ App.parse_positions words words.length 0 app, p < words.length) ∧
    (App.parse_positions words words.length 0 app).length ≤ words.length := by
  obtain ⟨h1, _, h3, h4⟩ := App.parse_positions_spec words words.length 0 app
  refine ⟨?_, ?_, h1, h3, by simpa using h4⟩
  · intro fuel hf
    refine ⟨?_, ?_⟩
    · exact App.parse_loop_congr fuel words.length words words 0 0 app rfl (by omega)
        (by omega)
    · obtain ⟨d, rfl⟩ := Nat.exists_eq_add_of_le hf
      exact App.parse_positions_fuel words app d
  · intro a a1 pos w k hw hc
    have hlt : pos < words.length := by
      by_contra hcon
      have : words[pos]? = none := List.getElem?_eq_none (by omega)
      rw [hw] at this
      cases this
    rcases (App.classify_next hc).2 with e | e
    · exact ⟨Or.inl e, by omega⟩
    · subst e
      obtain ⟨x, hx, _⟩ := App.classify_next_two hc
      have : pos + 1 < words.length := by
        by_contra hcon
        have : words[pos + 1]? = none := List.getElem?_eq_none (by omega)
        rw [hx] at this
        cases this
      exact ⟨Or.inr ⟨rfl, x, hx, this⟩, by omega⟩

/-! ## A declaration that fails -/

/-- C18 does not hold of the code: on a fresh `App`, `add_opt("foo", 'h')` fails because
the short name `h` belongs to the help flag, and stores no declaration, but it has already
put `foo` into the option-name set. The set then holds a name no stored declaration
has, and the later `add_opt("foo", 'f')`, whose short name is unused and which succeeds
on a fresh `App`, is refused as a duplicate name. -/
theorem failed_declaration_keeps_name :
    ((App.new none none).2.add_opt "foo".data (some 'h') none none).1
      = .error (.multipleOptionShortName 'h') ∧
    ((App.new none none).2.add_opt "foo".data (some 'h') none none).2.m_options
      = (App.new none none).2.m_options ∧
    ((App.new none none).2.add_opt "foo".data (some 'h') none none).2.m_flag_options
      = (App.new none none).2.m_flag_options ∧
    ((App.new none none).2.add_opt "foo".data (some 'h') none none).2.m_option_short_name_set
      = (App.new none none).2.m_option_short_name_set ∧
    ((App.new none none).2.add_opt "foo".data (some 'h') none none).2.m_option_name_set
      = "foo".data :: (App.new none none).2.m_option_name_set ∧
    "foo".data ∉ ((App.new none none).2.add_opt "foo".data (some 'h') none none).2.names ∧
    (((App.new none none).2.add_opt "foo".data (some 'h') none none).2.add_opt "foo".data
      (some 'f') none none).1 = .error (.multipleOptionName "foo".data) ∧
    ((App.new none none).2.add_opt "foo".data (some 'f') none none).1 = .ok := by
  refine ⟨?_, ?_, ?_, ?_, ?_, ?_, ?_, ?_⟩ <;> decide

/-! ## Parsing a line -/

theorem modifyHead_nil_append (l : List Str) :
    List.modifyHead (fun t : Str => [] ++ t) l = l := by
  cases l <;> simp

/-- The word splitting of `parse(const std::string&)`, with an item under way, in terms
of the library's splitting at separators. -/
theorem App.split_line_spec : ∀ (line item : Str),
    App.split_line item line =
      ((line.splitOnP is_space).modifyHead (fun t => item ++ t)).filter
        (fun t => !t.isEmpty) := by
  intro line
  induction line with
  | nil =>
    intro item
    cases item <;> simp [App.split_line, List.splitOnP_nil]
  | cons c cs ih =>
    intro item
    rw [List.splitOnP_cons]
    by_cases hc : c = ' '
    · subst hc
      have hs : is_space ' ' = true := by decide
      rw [App.split_line, ih [], modifyHead_nil_append]
      cases item <;> simp [hs]
    · have hs : is_space c = false := by simp [is_space, hc]
      rw [App.split_line, ih (item ++ [c])]
      simp [hc, hs, List.modifyHead_modifyHead, Function.comp_def]

/-- Reading a word without a space only extends the item under way. -/
theorem App.split_line_token : ∀ (t item rest : Str), ' ' ∉ t →
    App.split_line item (t ++ rest) = App.split_line (item ++ t) rest := by
  intro t
  induction t with
  | nil => intro item rest _; simp
  | cons c cs ih =>
    intro item rest h
    have hc : c ≠ ' ' := fun e => h (e ▸ List.mem_cons_self _ _)
    have hcs : ' ' ∉ cs := fun e => h (List.mem_cons_of_mem _ e)
    rw [List.cons_append, App.split_line]
    simp only [hc, if_false]
    rw [ih _ _ hcs]
    simp

/-- Words without spaces, joined by single spaces, are split back into the same words. -/
theorem App.split_line_join : ∀ tokens : List Str, (∀ t ∈ tokens, t ≠ [] ∧ ' ' ∉ t) →
    App.split_line [] ([' '].intercalate tokens) = tokens := by
  intro tokens
  induction tokens with
  | nil => intro _; rfl
  | cons t ts ih =>
    intro h
    obtain ⟨hne, hsp⟩ := h t (List.mem_cons_self _ _)
    cases ts with
    | nil =>
      have e : [' '].intercalate [t] = t ++ [] := by simp [List.intercalate]
      rw [e, App.split_line_token t [] [] hsp]
      cases t with
      | nil => exact absurd rfl hne
      | cons c cs => simp [App.split_line]
    | cons t2 ts1 =>
      have e : [' '].intercalate (t :: t2 :: ts1)
          = t ++ ' ' :: [' '].intercalate (t2 :: ts1) := by
        simp [List.intercalate]
      rw [e, App.split_line_token t [] _ hsp, App.split_line]
      simp only [if_true, List.nil_append]
      rw [ih (fun x hx => h x (List.mem_cons_of_mem _ hx))]
      cases t with
      | nil => exact absurd rfl hne
      | cons c cs => simp

/-- C14, as the code has it: `parse(line)` is `parse` of the maximal non-empty runs of
characters of the line other than the space, in order, the space being the only
separator; so for words that are not empty and contain no space, parsing them joined by
single spaces is parsing the list of them. -/
theorem parse_line_tokens (app : App) (line : Str) :
    app.parse_line line = app.parse (runs is_space line) ∧
    (∀ tokens : List Str, (∀ t ∈ tokens, t ≠ [] ∧ ' ' ∉ t) →
      app.parse_line ([' '].intercalate tokens) = app.parse tokens) := by
  refine ⟨?_, ?_⟩
  · rw [App.parse_line, App.split_line_spec, modifyHead_nil_append, runs]
  · intro tokens h
    rw [App.parse_line, App.split_line_join tokens h]

/-- C14 as stated fails for a tab: the line `add<TAB>sub` has the two runs `add` and `sub`
when tab counts as whitespace, but `parse(line)` takes it for one word. -/
theorem parse_line_tokens_counterexample :
    runs is_whitespace ("add".data ++ [Char.ofNat 9] ++ "sub".data)
      = ["add".data, "sub".data] ∧
    (sample.2.parse (runs is_whitespace
      ("add".data ++ [Char.ofNat 9] ++ "sub".data))).2.m_parsed_arguments
      = ["add".data, "sub".data] ∧
    (sample.2.parse_line ("add".data ++ [Char.ofNat 9] ++ "sub".data)).2.m_parsed_arguments
      = ["add".data ++ [Char.ofNat 9] ++ "sub".data] ∧
    sample.2.parse_line ("add".data ++ [Char.ofNat 9] ++ "sub".data)
      ≠ sample.2.parse (runs is_whitespace ("add".data ++ [Char.ofNat 9] ++ "sub".data)) := by
  refine ⟨?_, ?_, ?_, ?_⟩ <;> decide

/-! ## Characters behind the short name -/

theorem SameKind.same (r : Outcome × App) : SameKind r r := ⟨Eq.refl _, Eq.refl _⟩

/-- One round does the same at `-c...` and at `-c`, up to the word quoted by an error,
when `c` is neither `-` nor `h`. -/
theorem App.classify_short_tail (app : App) (c : Char) (hc : c ≠ '-') (hh : c ≠ 'h')
    (tail : Str) (nw : Option Str) :
    (∃ a k, app.classify ('-' :: c :: tail) nw = .next a k ∧
      app.classify ['-', c] nw = .next a k) ∨
    (∃ o1 o2, app.classify ('-' :: c :: tail) nw = .stop o1 app ∧
      app.classify ['-', c] nw = .stop o2 app ∧ o1.kind = o2.kind) := by
  rw [App.classify_short app c tail nw hc (fun h => hh h.1),
    App.classify_short app c [] nw hc (fun h => hh h.1)]
  by_cases hs : c ∈ app.m_option_short_name_set
  · simp only [hs, not_true_eq_false, if_false]
    cases app.m_options.find? (fun value => value.m_short_name = some c) with
    | none =>
      cases app.m_flag_options.find? (fun value => value.m_short_name = some c) with
      | none => exact Or.inr ⟨_, _, rfl, rfl, rfl⟩
      | some f => exact Or.inl ⟨_, _, rfl, rfl⟩
    | some o =>
      simp only [App.dispatch]
      cases nw with
      | none => exact Or.inr ⟨_, _, rfl, rfl, rfl⟩
      | some x =>
        by_cases hx : App.starts_with "-".data x = true
        · simp only [App.bind_value, hx, if_true]
          exact Or.inr ⟨_, _, rfl, rfl, rfl⟩
        · simp only [App.bind_value, hx, if_false, Bool.false_eq_true]
          exact Or.inl ⟨_, _, rfl, rfl⟩
  · simp only [hs, not_false_eq_true, if_true]
    exact Or.inr ⟨_, _, rfl, rfl, rfl⟩

/-- The induction behind C15, over the words in front of the short-option word. -/
theorem App.parse_short_tail (c : Char) (hc : c ≠ '-') (hh : c ≠ 'h') (tail : Str)
    (post : List Str) : ∀ (n : Nat) (pre : List Str) (app : App), pre.length ≤ n →
    SameKind (app.parse (pre ++ ('-' :: c :: tail) :: post))
      (app.parse (pre ++ ['-', c] :: post)) := by
  have base : ∀ app : App,
      SameKind (app.parse (('-' :: c :: tail) :: post)) (app.parse (['-', c] :: post)) := by
    intro app
    rw [App.parse_cons, App.parse_cons]
    rcases App.classify_short_tail app c hc hh tail post.head? with
      ⟨a, k, e1, e2⟩ | ⟨o1, o2, e1, e2, hk⟩
    · rw [e1, e2]
      exact SameKind.same _
    · rw [e1, e2]
      exact ⟨rfl, hk⟩
  intro n
  induction n with
  | zero =>
    intro pre app hl
    have : pre = [] := List.eq_nil_of_length_eq_zero (by omega)
    subst this
    exact base app
  | succ n ih =>
    intro pre app hl
    cases pre with
    | nil => exact base app
    | cons w pre1 =>
      simp only [List.cons_append]
      rw [App.parse_cons, App.parse_cons]
      cases pre1 with
      | nil =>
        simp only [List.nil_append, List.head?_cons]
        rw [App.classify_next_dash app w ('-' :: c :: tail) ['-', c]
          ((App.starts_with_dash _).mpr ⟨_, rfl⟩) ((App.starts_with_dash _).mpr ⟨_, rfl⟩)]
        cases hcl : app.classify w (some ['-', c]) with
        | stop o a => exact SameKind.same _
        | next a k =>
          simp only
          rcases (App.classify_next hcl).2 with e | e
          · subst e
            simp only [Nat.sub_self, List.drop_zero]
            exact base a
          · subst e
            exact SameKind.same _
      | cons p pre2 =>
        simp only [List.cons_append, List.head?_cons]
        cases hcl : app.classify w (some p) with
        | stop o a => exact SameKind.same _
        | next a k =>
          simp only
          simp only [List.length_cons] at hl
          rcases (App.classify_next hcl).2 with e | e
          · subst e
            simp only [Nat.sub_self, List.drop_zero]
            have := ih (p :: pre2) a (by simp only [List.length_cons]; omega)
            simpa only [List.cons_append] using this
          · subst e
            simp only [Nat.add_one_sub_one, List.drop_succ_cons, List.drop_zero]
            exact ih pre2 a (by omega)

/-- C15, as the code has it: for every state, every character `c` other than `-` and `h`,
every tail and all word lists `pre` and `post`, `parse` of `pre ++ [-c tail] ++ post` and
of `pre ++ [-c] ++ post` leave the same object and end the same way: both return, both
show the help, or both throw an error of the same category (its message quotes the word
as it was written). -/
theorem short_tail_ignored (app : App) (c : Char) (hc : c ≠ '-') (hh : c ≠ 'h')
    (tail : Str) (pre post : List Str) :
    (app.parse (pre ++ ['-' :: c :: tail] ++ post)).2
      = (app.parse (pre ++ [['-', c]] ++ post)).2 ∧
    (app.parse (pre ++ ['-' :: c :: tail] ++ post)).1.kind
      = (app.parse (pre ++ [['-', c]] ++ post)).1.kind := by
  have t := App.parse_short_tail c hc hh tail post pre.length pre app le_rfl
  simpa only [List.append_assoc, List.cons_append, List.nil_append] using t

/-- C15 at the sample program: `add -vx sub` and `add -v sub` give the same result. -/
theorem short_tail_ignored_witness :
    sample.2.parse ["add".data, "-vx".data, "sub".data]
      = sample.2.parse ["add".data, "-v".data, "sub".data] := by
  have t := short_tail_ignored sample.2 'v' (by decide) (by decide) "x".data
    ["add".data] ["sub".data]
  exact Prod.ext (by decide) t.1

/-- C15 as stated fails for `c = h`: on a fresh `App`, `-hx` is taken for the short name
`h`, records the help flag and lets `parse` return normally, while `-h` is the help word
and ends `parse` with the help outcome. -/
theorem short_tail_ignored_counterexample :
    ((App.new none none).2.parse ([] ++ ["-hx".data] ++ [])).1 = .ok ∧
    ((App.new none none).2.parse ([] ++ ["-h".data] ++ [])).1 = .help ∧
    ((App.new none none).2.parse ([] ++ ["-hx".data] ++ [])).2.m_parsed_flag_options
      = [⟨"help".data, some 'h', some "Print help information".data⟩] ∧
    ((App.new none none).2.parse ([] ++ ["-h".data] ++ [])).2.m_parsed_flag_options = [] := by
  refine ⟨?_, ?_, ?_, ?_⟩ <;> decide

end chibi
